import Mathlib

/-!
Verification of the aps streaming speech-enhancement pipeline.

The development shallowly embeds the repository's components:

* the FFT kernel of `csrc/utils/fft.h` (`FFTComputer`): its constructor
  (precomputed cosine/sine tables, real-FFT cache) is in the source; the
  bodies of `ComplexFFT`/`RealFFT` are only declared there and are modelled
  from the specification (pack as half-size complex sequence, transform,
  untangle via the real-to-complex symmetry formula);
* the frame buffer (`Frame`), the context buffer (`Context`) and the
  pipeline controller (`DfsmnNet`/`TimeFrequencyNnet`), whose bodies live in
  `base/pipeline.h` / implementation files that are not part of the visible
  sources; they are modelled from the specification's component design and
  checked against the scenarios S1-S3 and the quantified invariants.

Machine `float` arithmetic is modelled by exact real arithmetic, so the
spec's numeric tolerances (1e-6 per element, one ULP) are witnessed by exact
equalities.
-/

open ComplexConjugate

/- ------------------------------------------------------------------ -/
/- FFT kernel (spec 4.1, `csrc/utils/fft.h`)                           -/
/- ------------------------------------------------------------------ -/

/-- Modelled from the spec: the body of `FFTComputer::ComplexFFT` is declared
but not defined in `src/csrc/utils/fft.h`.  The spec (4.1) specifies an
in-place iterative radix-2 Cooley-Tukey realization of the discrete Fourier
transform on `M` interleaved `(real, imag)` pairs; we embed its input/output
behaviour: the length-`M` DFT with kernel `exp (-2*pi*I*k*n/M)`.  A buffer of
`M` interleaved pairs is embedded as a vector `Fin M → ℂ`. -/
noncomputable def dft (M : ℕ) (z : Fin M → ℂ) : Fin M → ℂ :=
  fun k => ∑ n : Fin M, z n * Complex.exp (-(2 * Real.pi * Complex.I) * (k.val * n.val) / M)

/-- Modelled from the spec: `ComplexFFT` with `invert = true` (spec 4.1):
the sine contributions are negated (conjugate kernel) and the result is
scaled by `1/M`. -/
noncomputable def idft (M : ℕ) (Z : Fin M → ℂ) : Fin M → ℂ :=
  fun n => (∑ k : Fin M, Z k * Complex.exp ((2 * Real.pi * Complex.I) * (n.val * k.val) / M)) / M

/-- Index `M - k` taken modulo `M`, the mirrored bin used by the
real-to-complex untangling formula. -/
def negIdx {M : ℕ} (k : Fin M) : Fin M :=
  ⟨(M - k.val) % M, Nat.mod_lt _ (by have := k.isLt; omega)⟩

/-- Modelled from the spec: the untangling step of `FFTComputer::RealFFT`
(spec 4.1).  Given the `M`-point DFT `Z` of the packed sequence, bin
`k ≠ 0` receives the true spectrum value
`(Z k + conj (Z (M-k)))/2 - (I/2) * exp (-pi*k*I/M) * (Z k - conj (Z (M-k)))`;
bin `0` keeps `Z 0` unchanged, i.e. it stores the pair
`((X 0 + X M)/2, (X 0 - X M)/2)` of DC and Nyquist halves — the consistent
forward/inverse convention the spec requires, and the one matching scenario
S3 (all-ones real parts, zero imaginary parts on a unit impulse). -/
noncomputable def untangle (M : ℕ) (Z : Fin M → ℂ) : Fin M → ℂ :=
  fun k =>
    if k.val = 0 then Z k
    else (Z k + conj (Z (negIdx k))) / 2 -
      Complex.I / 2 * Complex.exp (-(Real.pi : ℂ) * k.val * Complex.I / M) *
        (Z k - conj (Z (negIdx k)))

/-- Modelled from the spec: the inverse pack step of `FFTComputer::RealFFT`
(spec 4.1), reconstructing the packed half-size spectrum from the stored
real-FFT layout; it is the algebraic inverse of `untangle`. -/
noncomputable def tangle (M : ℕ) (Y : Fin M → ℂ) : Fin M → ℂ :=
  fun k =>
    if k.val = 0 then Y k
    else (Y k + conj (Y (negIdx k))) / 2 +
      Complex.I / 2 * Complex.exp ((Real.pi : ℂ) * k.val * Complex.I / M) *
        (Y k - conj (Y (negIdx k)))

/-- Modelled from the spec: `RealFFT` packs the real input of length `2*M`
as an `M`-point complex sequence (`src[2m], src[2m+1]`) (spec 4.1). -/
def pack (M : ℕ) (x : Fin (2 * M) → ℝ) : Fin M → ℂ :=
  fun m => ⟨x ⟨2 * m.val, by omega⟩, x ⟨2 * m.val + 1, by have := m.isLt; omega⟩⟩

/-- Modelled from the spec: the reverse of `pack`, writing the real and
imaginary parts of the half-size complex sequence back into the interleaved
real buffer. -/
def unpack (M : ℕ) (z : Fin M → ℂ) : Fin (2 * M) → ℝ :=
  fun n =>
    if n.val % 2 = 0 then (z ⟨n.val / 2, by have := n.isLt; omega⟩).re
    else (z ⟨n.val / 2, by have := n.isLt; omega⟩).im

/-- Modelled from the spec: forward `FFTComputer::RealFFT` on a buffer of
`N = 2*M` reals: pack, half-size complex FFT, untangle (spec 4.1). -/
noncomputable def realFFTFwd (M : ℕ) (x : Fin (2 * M) → ℝ) : Fin M → ℂ :=
  untangle M (dft M (pack M x))

/-- Modelled from the spec: inverse `FFTComputer::RealFFT`: reverse
untangle, inverse half-size complex FFT, unpack (spec 4.1). -/
noncomputable def realFFTInv (M : ℕ) (Y : Fin M → ℂ) : Fin (2 * M) → ℝ :=
  unpack M (idft M (tangle M Y))

/-- The scenario S3 input: `N = 8`, `x = [1,0,0,0,0,0,0,0]`. -/
def deltaInput : Fin (2 * 4) → ℝ := fun n => if n.val = 0 then 1 else 0

/- ------------------------------------------------------------------ -/
/- FFTComputer construction (src/csrc/utils/fft.h:21-33)               -/
/- ------------------------------------------------------------------ -/

/-- From `FFTComputer::FFTComputer` (src/csrc/utils/fft.h:27-28): the
cosine table has `table_size = register_size >> 1` entries and entry `k`
stores `cos (PI * k / table_size)`. -/
noncomputable def cosTable (register_size : ℕ) : List ℝ :=
  (List.range (register_size / 2)).map
    (fun k : ℕ => Real.cos (Real.pi * k / ((register_size / 2 : ℕ) : ℝ)))

/-- From `FFTComputer::FFTComputer` (src/csrc/utils/fft.h:27,29): the sine
table has `table_size = register_size >> 1` entries and entry `k` stores
`sin (PI * k / table_size)`. -/
noncomputable def sinTable (register_size : ℕ) : List ℝ :=
  (List.range (register_size / 2)).map
    (fun k : ℕ => Real.sin (Real.pi * k / ((register_size / 2 : ℕ) : ℝ)))

/-- Modelled from the spec: `RoundUpToNearestPowerOfTwo` lives in
`utils/math.h`, which is not among the visible sources; its name and its
use in the constructor assertion specify the least power of two that is
`≥ n`, i.e. `2 ^ ⌈log2 n⌉`. -/
def RoundUpToNearestPowerOfTwo (n : ℕ) : ℕ := 2 ^ Nat.clog 2 n

/-- The constructor assertion of `FFTComputer` (src/csrc/utils/fft.h:22):
`ASSERT(RoundUpToNearestPowerOfTwo(register_size) == register_size)`.  A
`Precondition` failure is fatal (spec 7), so construction is modelled as
defined only when this predicate holds. -/
def fftSizeAssertion (register_size : ℕ) : Prop :=
  RoundUpToNearestPowerOfTwo register_size = register_size

/-- From `FFTComputer` (src/csrc/utils/fft.h:44-50): the private state
fixed at construction — the register size, the precomputed tables and the
reusable `RealFFT` cache. -/
structure FFTComputer where
  register_size_ : ℕ
  cos_table_ : List ℝ
  sin_table_ : List ℝ
  fft_cache_ : List ℝ

/-- From `FFTComputer::FFTComputer` (src/csrc/utils/fft.h:21-33): both trig
tables are sized `register_size >> 1` and filled, and the `RealFFT` cache is
resized to `register_size`; nothing else is ever allocated. -/
noncomputable def mkFFTComputer (register_size : ℕ) : FFTComputer :=
  ⟨register_size, cosTable register_size, sinTable register_size,
    List.replicate register_size 0⟩

/-- Forward `RealFFT` on an interleaved real buffer (list form of
`realFFTFwd`). -/
noncomputable def realFFTListFwd (src : List ℝ) : List ℝ :=
  List.ofFn (unpack (src.length / 2)
    (realFFTFwd (src.length / 2) (fun i => src.getD i.val 0)))

/-- Inverse `RealFFT` on an interleaved real buffer (list form of
`realFFTInv`). -/
noncomputable def realFFTListInv (src : List ℝ) : List ℝ :=
  List.ofFn (realFFTInv (src.length / 2)
    (fun m => ⟨src.getD (2 * m.val) 0, src.getD (2 * m.val + 1) 0⟩))

/-- Modelled from the spec: a call `FFTComputer::RealFFT(src, n, invert)`.
The body is not in `src/`; per spec 4.1/7 a size different from the
register size fixed at construction violates the internal `Precondition`
assertion (fatal), modelled as `none`.  On success the computer's state is
returned unchanged: the tables and the cache are those allocated by the
constructor, reused by every call. -/
noncomputable def RealFFTCall (c : FFTComputer) (src : List ℝ) (invert : Bool) :
    Option (FFTComputer × List ℝ) :=
  if src.length = c.register_size_ then
    some (c, if invert then realFFTListInv src else realFFTListFwd src)
  else none

/- ------------------------------------------------------------------ -/
/- Frame buffer (spec 4.2, tests/csrc/test-pipeline.cc TestFrame)      -/
/- ------------------------------------------------------------------ -/

/-- Modelled from the spec: the emission loop of `Frame::Process`
(spec 4.2, `base/pipeline.h` is not among the visible sources): while the
tail holds at least `frame_len` samples, emit the leading `frame_len`
samples as a frame and advance the tail by `frame_hop`.  The loop is
embedded with an explicit iteration bound (first argument); `Frame.process`
passes `tail.length + 1`, which exceeds the number of iterations for every
valid configuration (`1 ≤ frame_hop ≤ frame_len`). -/
def drainAux {α : Type} (frame_len frame_hop : ℕ) : ℕ → List α → List (List α) × List α
  | 0, tail => ([], tail)
  | fuel + 1, tail =>
    if frame_len ≤ tail.length then
      let rest := drainAux frame_len frame_hop fuel (tail.drop frame_hop)
      (tail.take frame_len :: rest.1, rest.2)
    else ([], tail)

/-- The streaming state of `Frame` (spec data model item 1): the tail of
unconsumed samples plus the pending-output queue of completed frames. -/
structure FrameState (α : Type) where
  tail : List α
  queue : List (List α)

/-- Modelled from the spec: `Frame::Process` (spec 4.2) appends the
incoming samples to the tail and drains all completed frames into the
output queue. -/
def Frame.process {α : Type} (frame_len frame_hop : ℕ)
    (st : FrameState α) (block : List α) : FrameState α :=
  let t := st.tail ++ block
  let d := drainAux frame_len frame_hop (t.length + 1) t
  ⟨d.2, st.queue ++ d.1⟩

/-- Feeding a sequence of `Process` calls to a fresh `Frame`. -/
def Frame.runBlocks {α : Type} (frame_len frame_hop : ℕ)
    (bs : List (List α)) : FrameState α :=
  bs.foldl (Frame.process frame_len frame_hop) ⟨[], []⟩

/-- Modelled from the spec: `Frame::Pop` returns and removes the oldest
queued frame (spec 4.2); only the state effect is modelled. -/
def Frame.pop {α : Type} (st : FrameState α) : FrameState α :=
  ⟨st.tail, st.queue.tail⟩

/-- Modelled from the spec: `Frame::IsDone` (spec 4.2) — in `RUNNING` phase
the output queue is empty and (by the drain invariant) no further frame can
be formed from the tail. -/
def Frame.isDone {α : Type} (st : FrameState α) : Bool := st.queue.isEmpty

/-- The closed-form frame count for a stream of length `L`
(spec 8, framing completeness):
`max (0, ⌊(L − frame_len)/frame_hop⌋ + 1)` written over `ℕ`. -/
def numFrames (frame_len frame_hop L : ℕ) : ℕ :=
  if frame_len ≤ L then (L - frame_len) / frame_hop + 1 else 0

/-- The canonical frame decomposition of a complete stream `s`: frame `i`
is the slice of samples at global indices
`[i * frame_hop, i * frame_hop + frame_len)`. -/
def canonFrames {α : Type} (frame_len frame_hop : ℕ) (s : List α) : List (List α) :=
  (List.range (numFrames frame_len frame_hop s.length)).map
    (fun i => (s.drop (i * frame_hop)).take frame_len)

/-- The canonical frame-buffer state after a complete stream `s` has been
processed: the queue holds the canonical frames and the tail is what
remains after the last emitted frame's hop. -/
def canonFrameState {α : Type} (frame_len frame_hop : ℕ) (s : List α) : FrameState α :=
  ⟨s.drop (numFrames frame_len frame_hop s.length * frame_hop),
    canonFrames frame_len frame_hop s⟩

/- ------------------------------------------------------------------ -/
/- Context buffer (spec 4.3, tests/csrc/test-pipeline.cc TestContext)  -/
/- ------------------------------------------------------------------ -/

/-- The streaming state of `Context` (spec data model item 2): the queue of
buffered frames (or spectra), whether the first frame has arrived, and the
pending-output queue of emitted padded chunks. -/
structure CtxState (F : Type) where
  queue : List F
  started : Bool
  out : List (List F)

/-- Modelled from the spec: `Context::Process` (spec 4.3, `base/pipeline.h`
is not among the visible sources).  The frame is appended to the queue; on
the very first frame the queue is pre-filled with `lctx` replicas of it —
the left-boundary convention required by scenario S2, whose expected chunk
values read `max (1, ...)`.  A padded chunk is emitted whenever the queue
holds at least `lctx + chunk + rctx` frames: the output is the slice
`queue[0 .. lctx + chunk + rctx)` and the queue is advanced by `chunk`
frames.  With `chunk ≥ 1` a single appended frame crosses the threshold at
most once, so the emittable-while loop is one conditional. -/
def Ctx.step {F : Type} (lctx rctx chunk : ℕ) (st : CtxState F) (f : F) : CtxState F :=
  let q := if st.started then st.queue ++ [f] else List.replicate lctx f ++ [f]
  if lctx + chunk + rctx ≤ q.length then
    ⟨q.drop chunk, true, st.out ++ [q.take (lctx + chunk + rctx)]⟩
  else ⟨q, true, st.out⟩

/-- Modelled from the spec: the flush loop of `Context::SetDone` (spec 4.3):
while frames beyond the retained left context remain, emit the queue
right-padded with zero-frames to the full width and advance by `chunk`.
The first argument bounds the iterations; `Ctx.setDone` passes
`queue.length + 1`, sufficient whenever `chunk ≥ 1`. -/
def flushAux {F : Type} (lctx rctx chunk : ℕ) (zero : F) : ℕ → List F → List (List F)
  | 0, _ => []
  | fuel + 1, q =>
    if lctx < q.length then
      (q ++ List.replicate (lctx + chunk + rctx - q.length) zero).take (lctx + chunk + rctx)
        :: flushAux lctx rctx chunk zero fuel (q.drop chunk)
    else []

/-- Modelled from the spec: `Context::SetDone` (spec 4.3) marks end of
stream and drains the remaining frames as final right-zero-padded chunks. -/
def Ctx.setDone {F : Type} (lctx rctx chunk : ℕ) (zero : F) (st : CtxState F) : CtxState F :=
  ⟨[], st.started, st.out ++ flushAux lctx rctx chunk zero (st.queue.length + 1) st.queue⟩

/-- Feeding a sequence of `Process` calls to a fresh `Context`. -/
def Ctx.run {F : Type} (lctx rctx chunk : ℕ) (fs : List F) : CtxState F :=
  fs.foldl (Ctx.step lctx rctx chunk) ⟨[], false, []⟩

/-- Modelled from the spec: `Context::Pop` returns and removes the oldest
emitted chunk; only the state effect is modelled. -/
def Ctx.pop {F : Type} (st : CtxState F) : CtxState F :=
  ⟨st.queue, st.started, st.out.tail⟩

/-- Modelled from the spec: `Context::IsDone` (spec 4.3) — no more
emittable chunks; after `SetDone` this is emptiness of the output queue. -/
def Ctx.isDone {F : Type} (st : CtxState F) : Bool := st.out.isEmpty

/-- Chunk count for a finished stream of `T` frames:
`⌈T / chunk⌉` (spec 4.3 invariant) written over `ℕ`. -/
def nChunks (chunk T : ℕ) : ℕ := (T + chunk - 1) / chunk

/-- Number of chunks emitted while running, after `t` frames. -/
def runEmits (rctx chunk t : ℕ) : ℕ :=
  if chunk + rctx ≤ t then (t - (chunk + rctx)) / chunk + 1 else 0

/-- The stream as the context buffer sees it: `lctx` replicas of the first
frame, the frames themselves, and enough zero-frames on the right for the
flush padding. -/
def paddedStream {F : Type} (lctx rpad : ℕ) (zero : F) (fs : List F) : List F :=
  match fs with
  | [] => []
  | f :: _ => List.replicate lctx f ++ fs ++ List.replicate rpad zero

/-- The canonical chunk decomposition: chunk `k` is the width-
`lctx + chunk + rctx` window of the padded stream starting at `k * chunk`. -/
def ctxChunks {F : Type} (lctx rctx chunk : ℕ) (zero : F) (fs : List F) : List (List F) :=
  (List.range (nChunks chunk fs.length)).map
    (fun k => ((paddedStream lctx (chunk + rctx) zero fs).drop (k * chunk)).take
      (lctx + chunk + rctx))

/-- Scenario S2 zero substitution: frame values outside `[1, 50]` are
replaced by the zero frame. -/
def s2Sub (v : ℕ) : ℕ := if 1 ≤ v ∧ v ≤ 50 then v else 0

/-- Scenario S2 expected chunk `k`:
`[max 1 (2k-1), max 1 (2k), 2k+1, 2k+2, 2k+3, 2k+4, 2k+5]` with zeros
substituted where the index falls outside `[1, 50]`. -/
def s2Chunk (k : ℕ) : List ℕ :=
  [max 1 (2 * k - 1), max 1 (2 * k),
    s2Sub (2 * k + 1), s2Sub (2 * k + 2), s2Sub (2 * k + 3),
    s2Sub (2 * k + 4), s2Sub (2 * k + 5)]

/-- Scenario S2 expected output: 25 padded chunks. -/
def s2Expected : List (List ℕ) := (List.range 25).map s2Chunk

/- ------------------------------------------------------------------ -/
/- Pipeline controller (spec 4.4-4.6, csrc/enh/dfsmn.h)                -/
/- ------------------------------------------------------------------ -/

/-- The controller phase flag (spec data model item 4 and the state
machine of spec 4.6). -/
inductive Phase where
  | running : Phase
  | flushed : Phase
deriving DecidableEq

/-- Error kinds surfaced by the controller (spec 7). -/
inductive PipeErr where
  | invalidPhase : PipeErr
  | shapeError : PipeErr
  | modelError : PipeErr
deriving DecidableEq

/-- The fixed options of the controller (spec 6): frame length and hop,
FFT size, analysis and synthesis windows, context sizes and chunk size. -/
structure PipeParams where
  frame_len : ℕ
  frame_hop : ℕ
  fft_size : ℕ
  window : List ℝ
  syn_window : List ℝ
  lctx : ℕ
  rctx : ℕ
  chunk : ℕ

/-- List-level DFT used by the streaming STFT stage (the same transform as
`dft`, on a `List`-shaped spectrum). -/
noncomputable def listDFT (z : List ℂ) : List ℂ :=
  (List.range z.length).map (fun k =>
    ∑ n ∈ Finset.range z.length,
      z.getD n 0 * Complex.exp (-(2 * Real.pi * Complex.I) * (k * n) / z.length))

/-- List-level inverse DFT used by the streaming inverse STFT stage. -/
noncomputable def listIDFT (Z : List ℂ) : List ℂ :=
  (List.range Z.length).map (fun n =>
    (∑ k ∈ Finset.range Z.length,
      Z.getD k 0 * Complex.exp ((2 * Real.pi * Complex.I) * (n * k) / Z.length)) / Z.length)

/-- Modelled from the spec: the streaming STFT stage (spec 4.4): apply the
analysis window element-wise, zero-pad to the FFT size, transform. -/
noncomputable def stftFrame (P : PipeParams) (f : List ℝ) : List ℂ :=
  let wf := List.zipWith (fun a b => a * b) P.window f
  listDFT ((wf ++ List.replicate (P.fft_size - wf.length) 0).map Complex.ofReal)

/-- Modelled from the spec: one inverse STFT synthesis frame (spec 4.5):
inverse transform, truncate to the frame length, apply the synthesis
window element-wise. -/
noncomputable def istftFrame (P : PipeParams) (s : List ℂ) : List ℝ :=
  List.zipWith (fun a b => a * b) P.syn_window (((listIDFT s).map Complex.re).take P.frame_len)

/-- Modelled from the spec: the overlap-add step (spec 4.5): add the
windowed frame into the accumulator, emit the leading `frame_hop` samples,
shift the accumulator left by `frame_hop` and zero-fill the exposed tail. -/
def olaStep (frame_len frame_hop : ℕ) (acc f : List ℝ) : List ℝ × List ℝ :=
  let added := List.zipWith (fun a b => a + b) acc f
  (added.drop frame_hop ++ List.replicate (min frame_hop frame_len) 0, added.take frame_hop)

/-- Modelled from the spec: the enhancement model applied to one padded
chunk (spec 6, design note on opaque collaborators; `aps/rt_sse/enh/dfsmn.py`
is not among the visible sources).  The opaque feature transform and
network are folded into `mask`; the model returns the center `chunk`
spectra enhanced by an element-wise multiplicative mask — the
time-frequency masking design `DfsmnNet` names (`enh/time_frequency.h`). -/
noncomputable def enhanceChunk (P : PipeParams)
    (mask : List (List ℂ) → List (List ℂ)) (ch : List (List ℂ)) : List (List ℂ) :=
  List.zipWith (fun m s => List.zipWith (fun a b => a * b) m s)
    (mask ch) ((ch.drop P.lctx).take P.chunk)

/-- The controller state (spec data model: frame buffer, context buffer,
iSTFT overlap-add accumulator, phase flag). -/
structure Ctrl where
  phase : Phase
  frameSt : FrameState ℝ
  ctxSt : CtxState (List ℂ)
  acc : List ℝ

/-- The initial empty `RUNNING` state (spec 4.6, `Reset`). -/
def initCtrl (P : PipeParams) : Ctrl :=
  ⟨Phase.running, ⟨[], []⟩, ⟨[], false, []⟩, List.replicate P.frame_len 0⟩

/-- Folding newly synthesized frames through the overlap-add accumulator,
collecting the finalized output samples. -/
def olaFold (P : PipeParams) (acc : List ℝ) (frames : List (List ℝ)) : List ℝ × List ℝ :=
  frames.foldl (fun st f =>
    let r := olaStep P.frame_len P.frame_hop st.1 f
    (r.1, st.2 ++ r.2)) (acc, [])

/-- Modelled from the spec: `DfsmnNet::Process` (declared in
`src/csrc/enh/dfsmn.h:21-22`, body not among the visible sources).  Per
spec 4.6: `Process` after `Flush` (without `Reset`) fails with
`InvalidPhase`; otherwise the samples are pushed through the frame buffer,
each completed frame through the windowed forward transform into the
context buffer, every emittable padded chunk through the enhancement model,
and the enhanced spectra through inverse transform and overlap-add; the
finalized samples are returned. -/
noncomputable def pipeProcess (P : PipeParams) (mask : List (List ℂ) → List (List ℂ))
    (C : Ctrl) (block : List ℝ) : Except PipeErr (Ctrl × List ℝ) :=
  if C.phase = Phase.flushed then Except.error PipeErr.invalidPhase
  else
    let t := C.frameSt.tail ++ block
    let d := drainAux P.frame_len P.frame_hop (t.length + 1) t
    let spectra := d.1.map (stftFrame P)
    let cres := spectra.foldl (Ctx.step P.lctx P.rctx P.chunk)
      ⟨C.ctxSt.queue, C.ctxSt.started, []⟩
    let enh := (cres.out.map (fun ch => (enhanceChunk P mask ch).map (istftFrame P))).flatten
    let ola := olaFold P C.acc enh
    Except.ok (⟨Phase.running, ⟨d.2, []⟩, ⟨cres.queue, cres.started, []⟩, ola.1⟩, ola.2)

/-- Modelled from the spec: `DfsmnNet::Flush` (spec 4.6): transition to
`FLUSHING`/`FLUSHED`, propagate `SetDone` through the context buffer, run
the remaining chunks through the model and overlap-add, and return the
final tail of enhanced samples. -/
noncomputable def pipeFlush (P : PipeParams) (mask : List (List ℂ) → List (List ℂ))
    (C : Ctrl) : Ctrl × List ℝ :=
  let cres := Ctx.setDone P.lctx P.rctx P.chunk (List.replicate P.fft_size 0)
    ⟨C.ctxSt.queue, C.ctxSt.started, []⟩
  let enh := (cres.out.map (fun ch => (enhanceChunk P mask ch).map (istftFrame P))).flatten
  let ola := olaFold P C.acc enh
  (⟨Phase.flushed, ⟨C.frameSt.tail, []⟩, ⟨[], cres.started, []⟩, List.replicate P.frame_len 0⟩,
    ola.2 ++ ola.1)

/-- Modelled from the spec: `DfsmnNet::Reset` (spec 4.6): drop all buffered
state and return to the initial empty `RUNNING` state, from any phase. -/
def pipeReset (P : PipeParams) (_C : Ctrl) : Ctrl := initCtrl P

/-- Run a stream of `Process` calls, collecting the output samples of each
call; stops at the first error. -/
noncomputable def pipeRunAux (P : PipeParams) (mask : List (List ℂ) → List (List ℂ)) :
    List (List ℝ) → Ctrl → List (List ℝ)
  | [], _ => []
  | b :: bs, C =>
    match pipeProcess P mask C b with
    | Except.error _ => []
    | Except.ok r => r.2 :: pipeRunAux P mask bs r.1

/-- All buffered data of the controller is zero: the frame tail, the
buffered spectra of the context queue, and the overlap-add accumulator
(spec 8, property 5; spec 4.5, numeric guarantee). -/
def ZeroCtrl (C : Ctrl) : Prop :=
  (∀ x ∈ C.frameSt.tail, x = (0 : ℝ)) ∧
  (∀ s ∈ C.ctxSt.queue, ∀ x ∈ s, x = (0 : ℂ)) ∧
  (∀ x ∈ C.acc, x = (0 : ℝ))

/- ------------------------------------------------------------------ -/
/- Lemmas: DFT inversion                                               -/
/- ------------------------------------------------------------------ -/

lemma dft_kernel_orth (M : ℕ) (m n : Fin M) :
    ∑ k : Fin M,
      Complex.exp (-(2 * Real.pi * Complex.I) * (k.val * n.val) / M) *
        Complex.exp ((2 * Real.pi * Complex.I) * (m.val * k.val) / M) =
      if m = n then (M : ℂ) else 0 := by
  have hM : 0 < M := m.pos
  have hM0 : (M : ℂ) ≠ 0 := Nat.cast_ne_zero.mpr hM.ne'
  set q : ℂ := Complex.exp ((2 * Real.pi * Complex.I) * ((m.val : ℂ) - n.val) / M) with hq
  have hterm : ∀ k : Fin M,
      Complex.exp (-(2 * Real.pi * Complex.I) * (k.val * n.val) / M) *
        Complex.exp ((2 * Real.pi * Complex.I) * (m.val * k.val) / M) = q ^ (k.val : ℕ) := by
    intro k
    rw [hq, ← Complex.exp_nat_mul, ← Complex.exp_add]
    congr 1
    field_simp
    ring
  simp only [hterm]
  rw [Fin.sum_univ_eq_sum_range (fun k => q ^ k) M]
  by_cases hmn : m = n
  · subst hmn
    have hq1 : q = 1 := by
      rw [hq]
      simp
    simp [hq1]
  · have hd : ((m.val : ℂ) - n.val) ≠ 0 := by
      intro h
      apply hmn
      have h2 : (m.val : ℂ) = n.val := by linear_combination h
      exact Fin.ext (Nat.cast_injective h2)
    have h2pi : (2 * Real.pi * Complex.I : ℂ) ≠ 0 := by
      simp [Real.pi_ne_zero, Complex.I_ne_zero]
    have hqne : q ≠ 1 := by
      intro hq1
      rw [hq, Complex.exp_eq_one_iff] at hq1
      obtain ⟨j, hj⟩ := hq1
      have hdj : (m.val : ℂ) - n.val = j * M := by
        have h1 : (2 * Real.pi * Complex.I) * ((m.val : ℂ) - n.val) =
            (2 * Real.pi * Complex.I) * (j * M) := by
          field_simp at hj
          linear_combination hj
        exact mul_left_cancel₀ h2pi h1
      have hZ : ((m.val : ℤ) - n.val : ℤ) = j * M := by
        have h3 : (((m.val : ℤ) - n.val : ℤ) : ℂ) = ((j * M : ℤ) : ℂ) := by
          push_cast
          linear_combination hdj
        exact_mod_cast h3
      have hb1 : (m.val : ℤ) < M := by exact_mod_cast m.isLt
      have hb2 : (n.val : ℤ) < M := by exact_mod_cast n.isLt
      have hb3 : (0 : ℤ) ≤ m.val := Int.ofNat_nonneg _
      have hb4 : (0 : ℤ) ≤ n.val := Int.ofNat_nonneg _
      have hMZ : (0 : ℤ) < M := by exact_mod_cast hM
      have hdne : ((m.val : ℤ) - n.val : ℤ) ≠ 0 := by
        intro h0
        apply hd
        have h4 : (m.val : ℤ) = n.val := by omega
        have h5 : m.val = n.val := by exact_mod_cast h4
        simp [h5]
      rcases lt_trichotomy j 0 with hj0 | hj0 | hj0
      · have h1 : j * (M : ℤ) ≤ -1 * M :=
          mul_le_mul_of_nonneg_right (by omega) (le_of_lt hMZ)
        linarith
      · subst hj0
        simp at hZ
        exact hdne hZ
      · have h1 : 1 * (M : ℤ) ≤ j * M :=
          mul_le_mul_of_nonneg_right (by omega) (le_of_lt hMZ)
        linarith
    have hqM : q ^ M = 1 := by
      rw [hq, ← Complex.exp_nat_mul]
      have harg : (M : ℂ) * ((2 * Real.pi * Complex.I) * ((m.val : ℂ) - n.val) / M) =
          ((((m.val : ℤ) - (n.val : ℤ) : ℤ)) : ℂ) * (2 * Real.pi * Complex.I) := by
        push_cast
        field_simp
        ring
      rw [harg]
      exact Complex.exp_int_mul_two_pi_mul_I _
    rw [geom_sum_eq hqne, hqM]
    simp [hmn]

lemma idft_dft (M : ℕ) (z : Fin M → ℂ) : idft M (dft M z) = z := by
  funext m
  have hM : 0 < M := m.pos
  have hM0 : (M : ℂ) ≠ 0 := Nat.cast_ne_zero.mpr hM.ne'
  have expand : idft M (dft M z) m =
      (∑ k : Fin M, ∑ n : Fin M,
        z n * (Complex.exp (-(2 * Real.pi * Complex.I) * (k.val * n.val) / M) *
          Complex.exp ((2 * Real.pi * Complex.I) * (m.val * k.val) / M))) / M := by
    simp only [idft, dft]
    congr 1
    refine Finset.sum_congr rfl (fun k _ => ?_)
    rw [Finset.sum_mul]
    refine Finset.sum_congr rfl (fun n _ => ?_)
    ring
  rw [expand, Finset.sum_comm]
  have inner : ∀ n : Fin M, (∑ k : Fin M,
      z n * (Complex.exp (-(2 * Real.pi * Complex.I) * (k.val * n.val) / M) *
        Complex.exp ((2 * Real.pi * Complex.I) * (m.val * k.val) / M))) =
      z n * (if m = n then (M : ℂ) else 0) := by
    intro n
    rw [← Finset.mul_sum, dft_kernel_orth]
  simp only [inner]
  have single : (∑ n : Fin M, z n * (if m = n then (M : ℂ) else 0)) = z m * M := by
    rw [Finset.sum_eq_single m]
    · rw [if_pos rfl]
    · intro b _ hb
      rw [if_neg (Ne.symm hb), mul_zero]
    · intro hm
      exact absurd (Finset.mem_univ m) hm
  rw [single]
  field_simp

/- ------------------------------------------------------------------ -/
/- Lemmas: real-FFT untangling                                         -/
/- ------------------------------------------------------------------ -/

lemma negIdx_val {M : ℕ} (k : Fin M) (h : k.val ≠ 0) : (negIdx k).val = M - k.val := by
  simp only [negIdx]
  exact Nat.mod_eq_of_lt (by have := k.isLt; omega)

lemma negIdx_val_ne_zero {M : ℕ} (k : Fin M) (h : k.val ≠ 0) : (negIdx k).val ≠ 0 := by
  rw [negIdx_val k h]
  have := k.isLt
  omega

lemma negIdx_negIdx {M : ℕ} (k : Fin M) : negIdx (negIdx k) = k := by
  by_cases h : k.val = 0
  · apply Fin.ext
    have h1 : (negIdx k).val = 0 := by
      simp only [negIdx, h, Nat.sub_zero, Nat.mod_self]
    show (M - (negIdx k).val) % M = k.val
    rw [h1, h, Nat.sub_zero, Nat.mod_self]
  · apply Fin.ext
    rw [negIdx_val (negIdx k) (negIdx_val_ne_zero k h), negIdx_val k h]
    have := k.isLt
    omega

lemma conj_untangle_negIdx (M : ℕ) (Z : Fin M → ℂ) (k : Fin M) (h : k.val ≠ 0) :
    conj (untangle M Z (negIdx k)) =
      (Z k + conj (Z (negIdx k))) / 2 +
        Complex.I / 2 * Complex.exp (-(Real.pi : ℂ) * k.val * Complex.I / M) *
          (Z k - conj (Z (negIdx k))) := by
  have hM : 0 < M := k.pos
  have hM0 : (M : ℂ) ≠ 0 := Nat.cast_ne_zero.mpr hM.ne'
  have h2 : (negIdx k).val ≠ 0 := negIdx_val_ne_zero k h
  simp only [untangle, if_neg h2, negIdx_negIdx]
  have hval : (((negIdx k).val : ℕ) : ℂ) = (M : ℂ) - k.val := by
    rw [negIdx_val k h, Nat.cast_sub k.isLt.le]
  have hexp : Complex.exp ((Real.pi : ℂ) * ((M : ℂ) - k.val) * Complex.I / M) =
      - Complex.exp (-(Real.pi : ℂ) * (k.val : ℂ) * Complex.I / M) := by
    have harg : (Real.pi : ℂ) * ((M : ℂ) - k.val) * Complex.I / M =
        (Real.pi : ℂ) * Complex.I + -(Real.pi : ℂ) * (k.val : ℂ) * Complex.I / M := by
      field_simp
      ring
    rw [harg, Complex.exp_add, Complex.exp_pi_mul_I]
    ring
  have hconjexp : conj (Complex.exp (-(Real.pi : ℂ) * (((negIdx k).val : ℕ) : ℂ) * Complex.I / M)) =
      - Complex.exp (-(Real.pi : ℂ) * (k.val : ℂ) * Complex.I / M) := by
    rw [← Complex.exp_conj]
    rw [show conj (-(Real.pi : ℂ) * (((negIdx k).val : ℕ) : ℂ) * Complex.I / M) =
        (Real.pi : ℂ) * (((negIdx k).val : ℕ) : ℂ) * Complex.I / M by
      simp [map_div₀, Complex.conj_I]]
    rw [hval, hexp]
  rw [map_sub, map_div₀, map_add, map_mul, map_mul, map_div₀, map_sub]
  rw [Complex.conj_conj, Complex.conj_I, hconjexp]
  simp only [map_ofNat]
  ring

lemma tangle_untangle (M : ℕ) (Z : Fin M → ℂ) : tangle M (untangle M Z) = Z := by
  funext k
  by_cases h : k.val = 0
  · simp only [tangle, untangle, if_pos h]
  · have hM0 : (M : ℂ) ≠ 0 := Nat.cast_ne_zero.mpr (by have := k.isLt; omega)
    simp only [tangle, if_neg h]
    rw [conj_untangle_negIdx M Z k h]
    simp only [untangle, if_neg h]
    set E : ℂ := Complex.exp (-(Real.pi : ℂ) * (k.val : ℂ) * Complex.I / M) with hE
    set E' : ℂ := Complex.exp ((Real.pi : ℂ) * (k.val : ℂ) * Complex.I / M) with hE'
    have hEE : E' * E = 1 := by
      rw [hE, hE', ← Complex.exp_add]
      rw [show (Real.pi : ℂ) * (k.val : ℂ) * Complex.I / M +
          -(Real.pi : ℂ) * (k.val : ℂ) * Complex.I / M = 0 by ring]
      exact Complex.exp_zero
    have hI : Complex.I * Complex.I = -1 := Complex.I_mul_I
    set a : ℂ := Z k
    set b : ℂ := conj (Z (negIdx k))
    linear_combination ((a - b) / 2) * hEE + (-(E' * E) * (a - b) / 2) * hI

lemma unpack_pack (M : ℕ) (x : Fin (2 * M) → ℝ) : unpack M (pack M x) = x := by
  funext n
  by_cases h : n.val % 2 = 0
  · simp only [unpack, pack, if_pos h]
    congr 1
    apply Fin.ext
    show 2 * (n.val / 2) = n.val
    omega
  · simp only [unpack, pack, if_neg h]
    congr 1
    apply Fin.ext
    show 2 * (n.val / 2) + 1 = n.val
    omega

lemma realFFT_inv_fwd (M : ℕ) (x : Fin (2 * M) → ℝ) :
    realFFTInv M (realFFTFwd M x) = x := by
  unfold realFFTInv realFFTFwd
  rw [tangle_untangle, idft_dft, unpack_pack]

lemma pack_delta : pack 4 deltaInput = fun m => if m.val = 0 then 1 else 0 := by
  funext m
  simp only [pack, deltaInput]
  by_cases h : m.val = 0
  · apply Complex.ext <;> simp [h]
  · apply Complex.ext <;> simp [h]

lemma dft_deltaPacked (M : ℕ) (hM : 0 < M) :
    dft M (fun m : Fin M => if m.val = 0 then 1 else 0) = fun _ => 1 := by
  funext k
  simp only [dft]
  rw [Finset.sum_eq_single ⟨0, hM⟩]
  · simp
  · intro b _ hb
    have hb0 : b.val ≠ 0 := fun h0 => hb (Fin.ext h0)
    simp [hb0]
  · intro hm
    exact absurd (Finset.mem_univ _) hm

lemma untangle_one (M : ℕ) : untangle M (fun _ => 1) = fun _ => 1 := by
  funext k
  simp only [untangle]
  by_cases h : k.val = 0
  · simp [h]
  · norm_num [h]

lemma realFFTFwd_delta : realFFTFwd 4 deltaInput = fun _ => 1 := by
  unfold realFFTFwd
  rw [pack_delta, dft_deltaPacked 4 (by norm_num), untangle_one]

/-- C1: for every even FFT size `N = 2*M` — in particular every power of two
in `{64, 128, 256, 512, 1024}` — and every real input vector `x` of length
`N`, the inverse `RealFFT` of the forward `RealFFT` of `x` is exactly `x`
(so in float arithmetic the round trip holds within any tolerance, in
particular 1e-6 per element); and for `N = 8` with `x = [1,0,0,0,0,0,0,0]`
the forward transform has every stored bin equal to `1` (all real parts
`1`, all imaginary parts `0`) and the inverse transform reconstructs `x`. -/
theorem fft_realFFT_roundtrip_and_impulse (M : ℕ) (x : Fin (2 * M) → ℝ) :
    realFFTInv M (realFFTFwd M x) = x ∧
    (∀ k : Fin 4, realFFTFwd 4 deltaInput k = 1) ∧
    realFFTInv 4 (fun _ => 1) = deltaInput :=
  ⟨realFFT_inv_fwd M x,
   fun k => by rw [realFFTFwd_delta],
   by rw [← realFFTFwd_delta]; exact realFFT_inv_fwd 4 deltaInput⟩

/- ------------------------------------------------------------------ -/
/- FFTComputer construction theorems                                   -/
/- ------------------------------------------------------------------ -/

/-- C6: the FFT kernel's precomputed trigonometric tables have length
`N/2` (`N` the register size fixed at construction), and for every
`k < N/2` entry `k` of the cosine table stores `cos (pi*k/(N/2))` and
entry `k` of the sine table stores `sin (pi*k/(N/2))`
(src/csrc/utils/fft.h:23-30). -/
theorem fft_trig_tables (N k : ℕ) (hk : k < N / 2) :
    (cosTable N).length = N / 2 ∧ (sinTable N).length = N / 2 ∧
    (cosTable N).getD k 0 = Real.cos (Real.pi * k / ((N / 2 : ℕ) : ℝ)) ∧
    (sinTable N).getD k 0 = Real.sin (Real.pi * k / ((N / 2 : ℕ) : ℝ)) := by
  have hlc : (cosTable N).length = N / 2 := by
    simp only [cosTable, List.length_map, List.length_range]
  have hls : (sinTable N).length = N / 2 := by
    simp only [sinTable, List.length_map, List.length_range]
  refine ⟨hlc, hls, ?_, ?_⟩
  · rw [List.getD_eq_getElem _ _ (hlc ▸ hk)]
    simp only [cosTable, List.getElem_map, List.getElem_range]
  · rw [List.getD_eq_getElem _ _ (hls ▸ hk)]
    simp only [sinTable, List.getElem_map, List.getElem_range]

/-- C6 witness: the theorem applied at `N = 8`, `k = 1`. -/
theorem fft_trig_tables_witness :
    (cosTable 8).getD 1 0 = Real.cos (Real.pi * ((1 : ℕ) : ℝ) / ((8 / 2 : ℕ) : ℝ)) :=
  (fft_trig_tables 8 1 (by norm_num)).2.2.1

/-- C7: the constructor assertion
`RoundUpToNearestPowerOfTwo(register_size) == register_size`
(src/csrc/utils/fft.h:22) holds if and only if the size is a power of two:
for every power-of-two size construction succeeds, and for any other size
the assertion is violated (a fatal `Precondition` failure, spec 7). -/
theorem fft_constructor_assertion_iff_pow2 (n : ℕ) :
    fftSizeAssertion n ↔ ∃ k, n = 2 ^ k := by
  constructor
  · intro h
    exact ⟨Nat.clog 2 n, h.symm⟩
  · rintro ⟨k, rfl⟩
    unfold fftSizeAssertion RoundUpToNearestPowerOfTwo
    rw [Nat.clog_pow 2 k (by norm_num)]

/-- C7 witness: the assertion holds at the power of two `8 = 2^3` and
fails at `6`. -/
theorem fft_constructor_assertion_iff_pow2_witness : fftSizeAssertion 8 :=
  (fft_constructor_assertion_iff_pow2 8).mpr ⟨3, rfl⟩

/-- C9: the trig tables (length `register_size/2`) and the `RealFFT` cache
(length `register_size`) are allocated once at construction
(src/csrc/utils/fft.h:21-33) and reused: a `RealFFT` call with
`num_samples` different from the fixed register size violates the
precondition, and a successful call leaves the computer's state (hence its
tables and cache) unchanged — no per-call allocation. -/
theorem fft_computer_fixed_size (n : ℕ) (src : List ℝ) (invert : Bool)
    (hsrc : src.length ≠ n) :
    (mkFFTComputer n).cos_table_.length = n / 2 ∧
    (mkFFTComputer n).sin_table_.length = n / 2 ∧
    (mkFFTComputer n).fft_cache_.length = n ∧
    RealFFTCall (mkFFTComputer n) src invert = none ∧
    (∀ src2 inv2 c2 out, RealFFTCall (mkFFTComputer n) src2 inv2 = some (c2, out) →
      c2 = mkFFTComputer n) := by
  refine ⟨?_, ?_, ?_, ?_, ?_⟩
  · simp only [mkFFTComputer, cosTable, List.length_map, List.length_range]
  · simp only [mkFFTComputer, sinTable, List.length_map, List.length_range]
  · simp only [mkFFTComputer, List.length_replicate]
  · unfold RealFFTCall
    exact if_neg hsrc
  · intro src2 inv2 c2 out hcall
    unfold RealFFTCall at hcall
    by_cases h2 : src2.length = (mkFFTComputer n).register_size_
    · rw [if_pos h2] at hcall
      exact (congrArg Prod.fst (Option.some.inj hcall)).symm
    · rw [if_neg h2] at hcall
      cases hcall

/-- C9 witness: the theorem applied at `n = 8` with a length-3 buffer. -/
theorem fft_computer_fixed_size_witness :
    RealFFTCall (mkFFTComputer 8) [(1 : ℝ), 2, 3] false = none :=
  (fft_computer_fixed_size 8 [(1 : ℝ), 2, 3] false (by simp)).2.2.2.1

/- ------------------------------------------------------------------ -/
/- Lemmas: frame buffer characterization                               -/
/- ------------------------------------------------------------------ -/

lemma numFrames_mul_le (len hop L : ℕ) (hhop : 0 < hop) (hlen : hop ≤ len) :
    numFrames len hop L * hop ≤ L := by
  unfold numFrames
  split
  · rename_i h
    calc ((L - len) / hop + 1) * hop = (L - len) / hop * hop + hop := by ring
    _ ≤ (L - len) + hop := Nat.add_le_add_right (Nat.div_mul_le_self _ _) hop
    _ ≤ L := by omega
  · omega

lemma numFrames_tail_lt (len hop L : ℕ) (hhop : 0 < hop) (hlen0 : 0 < len) :
    L < numFrames len hop L * hop + len := by
  unfold numFrames
  split
  · rename_i h
    set q := (L - len) / hop with hq
    have h1 : hop * q + (L - len) % hop = L - len := Nat.div_add_mod _ _
    have h2 : (L - len) % hop < hop := Nat.mod_lt _ hhop
    have h3 : (q + 1) * hop = hop * q + hop := by ring
    rw [h3]
    generalize hT : hop * q = T at h1
    omega
  · omega

lemma numFrames_step (len hop L : ℕ) (hhop : 0 < hop) (hlen : hop ≤ len) (h : len ≤ L) :
    numFrames len hop L = numFrames len hop (L - hop) + 1 := by
  unfold numFrames
  by_cases h2 : len ≤ L - hop
  · rw [if_pos h, if_pos h2]
    have h3 : hop ≤ L - len := by omega
    rw [Nat.div_eq_sub_div hhop h3]
    have h4 : L - len - hop = L - hop - len := by omega
    rw [h4]
  · rw [if_pos h, if_neg h2]
    have h5 : L - len < hop := by omega
    rw [Nat.div_eq_of_lt h5]

lemma canonFrames_cons {α : Type} (len hop : ℕ) (hhop : 0 < hop) (hlen : hop ≤ len)
    (u : List α) (h : len ≤ u.length) :
    canonFrames len hop u = u.take len :: canonFrames len hop (u.drop hop) := by
  unfold canonFrames
  rw [List.length_drop,
    numFrames_step len hop u.length hhop hlen h, List.range_succ_eq_map,
    List.map_cons, List.map_map]
  congr 1
  · simp
  · apply List.map_congr_left
    intro i _
    show (u.drop (Nat.succ i * hop)).take len = ((u.drop hop).drop (i * hop)).take len
    rw [List.drop_drop]
    congr 2
    rw [Nat.succ_mul]
    ring

lemma drainAux_spec {α : Type} (len hop : ℕ) (hhop : 0 < hop) (hlen : hop ≤ len) :
    ∀ fuel (u : List α), u.length ≤ fuel →
      drainAux len hop fuel u =
        (canonFrames len hop u, u.drop (numFrames len hop u.length * hop)) := by
  intro fuel
  induction fuel with
  | zero =>
    intro u hu
    have hu0 : u = [] := List.length_eq_zero.mp (Nat.le_zero.mp hu)
    subst hu0
    have h0 : numFrames len hop 0 = 0 := by
      unfold numFrames
      rw [if_neg (by omega)]
    simp [drainAux, canonFrames, h0]
  | succ n ih =>
    intro u hu
    by_cases h : len ≤ u.length
    · have hrec := ih (u.drop hop) (by rw [List.length_drop]; omega)
      simp only [drainAux, if_pos h, hrec]
      have hcount : numFrames len hop u.length = numFrames len hop (u.drop hop).length + 1 := by
        rw [List.length_drop]
        exact numFrames_step len hop u.length hhop hlen h
      refine Prod.ext ?_ ?_
      · show u.take len :: canonFrames len hop (u.drop hop) = canonFrames len hop u
        exact (canonFrames_cons len hop hhop hlen u h).symm
      · show (u.drop hop).drop (numFrames len hop (u.drop hop).length * hop) =
          u.drop (numFrames len hop u.length * hop)
        rw [List.drop_drop, hcount]
        congr 1
        ring
    · have h0 : numFrames len hop u.length = 0 := by
        unfold numFrames
        rw [if_neg h]
      have hc : canonFrames len hop u = [] := by
        unfold canonFrames
        rw [h0]
        simp
      simp [drainAux, if_neg h, hc, h0]

lemma numFrames_lower (len hop L : ℕ) (hhop : 0 < hop) (hlen : hop ≤ len)
    (h : 0 < numFrames len hop L) :
    len + (numFrames len hop L - 1) * hop ≤ L := by
  unfold numFrames at h ⊢
  by_cases hL : len ≤ L
  · rw [if_pos hL]
    simp only [Nat.add_sub_cancel]
    have h1 : (L - len) / hop * hop ≤ L - len := Nat.div_mul_le_self _ _
    generalize hT : (L - len) / hop * hop = T at h1 ⊢
    omega
  · rw [if_neg hL] at h
    omega

lemma numFrames_additive (len hop L B : ℕ) (hhop : 0 < hop) (hlen : hop ≤ len) :
    numFrames len hop (L + B) =
      numFrames len hop L + numFrames len hop (L + B - numFrames len hop L * hop) := by
  have hmul := numFrames_mul_le len hop L hhop hlen
  set m := numFrames len hop L with hm
  by_cases hc : len ≤ L + B - m * hop
  · have hl' : len ≤ L + B := le_trans hc (Nat.sub_le _ _)
    have e1 : numFrames len hop (L + B) = (L + B - len) / hop + 1 := by
      unfold numFrames
      rw [if_pos hl']
    have e2 : numFrames len hop (L + B - m * hop) = (L + B - m * hop - len) / hop + 1 := by
      unfold numFrames
      rw [if_pos hc]
    have harg : L + B - m * hop - len = (L + B - len) - hop * m := by
      rw [Nat.sub_right_comm, mul_comm]
    have hT1 : hop * m ≤ L + B - len := by
      rw [mul_comm]
      generalize hT : m * hop = T at hmul hc ⊢
      omega
    have e3 : ((L + B - len) - hop * m) / hop = (L + B - len) / hop - m :=
      Nat.sub_mul_div _ _ _ hT1
    have hle : m ≤ (L + B - len) / hop :=
      (Nat.le_div_iff_mul_le hhop).mpr (by rw [← mul_comm hop m]; exact hT1)
    rw [e1, e2, harg, e3]
    generalize hA : (L + B - len) / hop = A at hle ⊢
    omega
  · have e2 : numFrames len hop (L + B - m * hop) = 0 := by
      unfold numFrames
      rw [if_neg hc]
    rw [e2, Nat.add_zero]
    by_cases hl' : len ≤ L + B
    · have hL : len ≤ L := by
        by_contra hL
        have hm0 : m = 0 := by
          rw [hm]
          unfold numFrames
          rw [if_neg hL]
        rw [hm0, Nat.zero_mul, Nat.sub_zero] at hc
        exact hc hl'
      have hm1 : 0 < m := by
        rw [hm]
        unfold numFrames
        rw [if_pos hL]
        exact Nat.succ_pos _
      have hlow : len + (m - 1) * hop ≤ L := by
        rw [hm]
        exact numFrames_lower len hop L hhop hlen (by rw [← hm]; exact hm1)
      have e1 : numFrames len hop (L + B) = (L + B - len) / hop + 1 := by
        unfold numFrames
        rw [if_pos hl']
      have hrel : m * hop = (m - 1) * hop + hop := by
        conv_lhs => rw [show m = (m - 1) + 1 by omega]
        rw [Nat.succ_mul]
      have hlower2 : (m - 1) * hop ≤ L + B - len := by
        generalize hT : (m - 1) * hop = T at hlow ⊢
        omega
      have hupper1 : L + B - len < m * hop := by
        generalize hT : m * hop = T at hc ⊢
        omega
      have hupper2 : L + B - len < ((m - 1) + 1) * hop := by
        rw [Nat.succ_mul, ← hrel]
        exact hupper1
      have hdiv : (L + B - len) / hop = m - 1 := Nat.div_eq_of_lt_le hlower2 hupper2
      rw [e1, hdiv]
      omega
    · have e1 : numFrames len hop (L + B) = 0 := by
        unfold numFrames
        rw [if_neg hl']
      have hm0 : m = 0 := by
        rw [hm]
        unfold numFrames
        rw [if_neg (by omega : ¬ len ≤ L)]
      rw [e1, hm0]

lemma canonFrames_additive {α : Type} (len hop : ℕ) (hhop : 0 < hop) (hlen : hop ≤ len)
    (s b : List α) :
    canonFrames len hop (s ++ b) =
      canonFrames len hop s ++
        canonFrames len hop ((s ++ b).drop (numFrames len hop s.length * hop)) := by
  have hmul : numFrames len hop s.length * hop ≤ s.length :=
    numFrames_mul_le len hop s.length hhop hlen
  have hcount : numFrames len hop (s ++ b).length =
      numFrames len hop s.length +
        numFrames len hop ((s ++ b).drop (numFrames len hop s.length * hop)).length := by
    rw [List.length_drop, List.length_append]
    exact numFrames_additive len hop s.length b.length hhop hlen
  unfold canonFrames
  rw [hcount, List.range_add, List.map_append, List.map_map]
  congr 1
  · apply List.map_congr_left
    intro i hi
    rw [List.mem_range] at hi
    have hwin : i * hop + len ≤ s.length := by
      have hm1 : 0 < numFrames len hop s.length := by omega
      have hlow := numFrames_lower len hop s.length hhop hlen hm1
      have hmono : i * hop ≤ (numFrames len hop s.length - 1) * hop :=
        Nat.mul_le_mul_right _ (by omega)
      generalize hT1 : i * hop = T1 at hmono ⊢
      generalize hT2 : (numFrames len hop s.length - 1) * hop = T2 at hmono hlow
      omega
    rw [List.drop_append_of_le_length (by omega),
      List.take_append_of_le_length (by rw [List.length_drop]; omega)]
  · apply List.map_congr_left
    intro j _
    simp only [Function.comp_apply]
    show ((s ++ b).drop ((numFrames len hop s.length + j) * hop)).take len =
      (((s ++ b).drop (numFrames len hop s.length * hop)).drop (j * hop)).take len
    rw [List.drop_drop]
    congr 2
    ring

lemma frame_step_canon {α : Type} (len hop : ℕ) (hhop : 0 < hop) (hlen : hop ≤ len)
    (s b : List α) :
    Frame.process len hop (canonFrameState len hop s) b =
      canonFrameState len hop (s ++ b) := by
  have hmul : numFrames len hop s.length * hop ≤ s.length :=
    numFrames_mul_le len hop s.length hhop hlen
  unfold Frame.process canonFrameState
  have ht : s.drop (numFrames len hop s.length * hop) ++ b =
      (s ++ b).drop (numFrames len hop s.length * hop) :=
    (List.drop_append_of_le_length hmul).symm
  simp only [ht]
  rw [drainAux_spec len hop hhop hlen _ _ (Nat.le_succ _)]
  have hcount : numFrames len hop (s ++ b).length =
      numFrames len hop s.length +
        numFrames len hop ((s ++ b).drop (numFrames len hop s.length * hop)).length := by
    rw [List.length_drop, List.length_append]
    exact numFrames_additive len hop s.length b.length hhop hlen
  refine congrArg₂ FrameState.mk ?_ ?_
  · rw [List.drop_drop, hcount]
    congr 1
    ring
  · exact (canonFrames_additive len hop hhop hlen s b).symm

lemma frame_runBlocks_canon {α : Type} (len hop : ℕ) (hhop : 0 < hop) (hlen : hop ≤ len)
    (bs : List (List α)) :
    Frame.runBlocks len hop bs = canonFrameState len hop bs.flatten := by
  induction bs using List.reverseRecOn with
  | nil =>
    unfold Frame.runBlocks canonFrameState
    have h0 : numFrames len hop (0 : ℕ) = 0 := by
      unfold numFrames
      rw [if_neg (by omega)]
    simp [canonFrames, h0]
  | append_singleton bs b ih =>
    unfold Frame.runBlocks at ih ⊢
    rw [List.foldl_append, List.foldl_cons, List.foldl_nil, ih,
      frame_step_canon len hop hhop hlen, List.flatten_append]
    simp

lemma numFrames_int_formula (len hop L : ℕ) (hhop : 0 < hop) :
    (numFrames len hop L : ℤ) = max 0 (Int.fdiv ((L : ℤ) - len) hop + 1) := by
  rw [Int.fdiv_eq_ediv _ (by positivity)]
  by_cases h : len ≤ L
  · unfold numFrames
    rw [if_pos h]
    have hcast : (L : ℤ) - len = ((L - len : ℕ) : ℤ) := by omega
    rw [hcast, ← Int.ofNat_ediv]
    have hside : (0 : ℤ) ≤ (((L - len) / hop : ℕ) : ℤ) + 1 := by positivity
    rw [max_eq_right hside]
    push_cast
    ring
  · unfold numFrames
    rw [if_neg h]
    have hneg : ((L : ℤ) - len) / (hop : ℤ) < 0 :=
      Int.ediv_neg' (by omega) (by exact_mod_cast hhop)
    generalize hq : ((L : ℤ) - len) / (hop : ℤ) = q at hneg
    rw [max_eq_left (by omega)]
    simp

/-- C2: for every input stream fed to the frame buffer through any sequence
of `Process` calls (any split of the stream into blocks) with valid
`frame_len`/`frame_hop`, the number of frames emitted before flush equals
`max (0, (L - frame_len) fdiv frame_hop + 1)` (floor division over `ℤ`),
and the `i`-th emitted frame is exactly the slice of samples at global
indices `[i*frame_hop, i*frame_hop + frame_len)`; in particular scenario S1
(`frame_len = 20`, `frame_hop = 10`, samples `0..99` fed as blocks `0..49`
and `50..99`) yields exactly 9 frames with frame `i` holding samples
`10*i .. 10*i + 19`. -/
theorem frame_buffer_completeness {α : Type} (frame_len frame_hop : ℕ)
    (bs : List (List α)) (hhop : 0 < frame_hop) (hlen : frame_hop ≤ frame_len) :
    ((Frame.runBlocks frame_len frame_hop bs).queue.length : ℤ) =
      max 0 (Int.fdiv ((bs.flatten.length : ℤ) - frame_len) frame_hop + 1) ∧
    (∀ i (hi : i < (Frame.runBlocks frame_len frame_hop bs).queue.length),
      (Frame.runBlocks frame_len frame_hop bs).queue[i] =
        (bs.flatten.drop (i * frame_hop)).take frame_len) ∧
    (Frame.runBlocks 20 10 [List.range 50, List.range' 50 50]).queue =
      (List.range 9).map (fun i => List.range' (10 * i) 20) := by
  have hq : (Frame.runBlocks frame_len frame_hop bs).queue =
      canonFrames frame_len frame_hop bs.flatten := by
    rw [frame_runBlocks_canon frame_len frame_hop hhop hlen bs]
    rfl
  have hql : (Frame.runBlocks frame_len frame_hop bs).queue.length =
      numFrames frame_len frame_hop bs.flatten.length := by
    rw [hq]
    unfold canonFrames
    rw [List.length_map, List.length_range]
  refine ⟨?_, ?_, ?_⟩
  · rw [hql]
    exact numFrames_int_formula _ _ _ hhop
  · intro i hi
    rw [List.getElem_of_eq hq hi]
    have hi2 : i < numFrames frame_len frame_hop bs.flatten.length := by
      rw [← hql]
      exact hi
    simp only [canonFrames, List.getElem_map, List.getElem_range]
  · rw [frame_runBlocks_canon 20 10 (by norm_num) (by norm_num)]
    show canonFrames 20 10 ([List.range 50, List.range' 50 50].flatten) =
      (List.range 9).map (fun i => List.range' (10 * i) 20)
    decide

/-- C2 witness: the theorem applied at scenario S1. -/
theorem frame_buffer_completeness_witness :
    (Frame.runBlocks 20 10 [List.range 50, List.range' 50 50]).queue =
      (List.range 9).map (fun i => List.range' (10 * i) 20) :=
  (frame_buffer_completeness 20 10 [List.range 50, List.range' 50 50]
    (by norm_num) (by norm_num)).2.2

/- ------------------------------------------------------------------ -/
/- Lemmas: context buffer characterization                             -/
/- ------------------------------------------------------------------ -/

lemma runEmits_eq_numFrames (r c t : ℕ) : runEmits r c t = numFrames (c + r) c t := rfl

lemma runEmits_succ_of_le (r c t : ℕ) (hc : 0 < c)
    (h : runEmits r c t * c + (c + r) ≤ t + 1) :
    runEmits r c (t + 1) = runEmits r c t + 1 := by
  rw [runEmits_eq_numFrames] at h ⊢
  rw [runEmits_eq_numFrames]
  have htail := numFrames_tail_lt (c + r) c t hc (by omega)
  have hle : c + r ≤ t + 1 := by
    generalize hT : numFrames (c + r) c t * c = T at h
    omega
  have e1 : numFrames (c + r) c (t + 1) = (t + 1 - (c + r)) / c + 1 := by
    unfold numFrames
    rw [if_pos hle]
  have hdiv : (t + 1 - (c + r)) / c = numFrames (c + r) c t := by
    apply Nat.div_eq_of_lt_le
    · generalize hT : numFrames (c + r) c t * c = T at h
      omega
    · rw [Nat.succ_mul]
      generalize hT : numFrames (c + r) c t * c = T at h htail
      omega
  rw [e1, hdiv]

lemma runEmits_succ_of_gt (r c t : ℕ) (hc : 0 < c)
    (h : ¬ (runEmits r c t * c + (c + r) ≤ t + 1)) :
    runEmits r c (t + 1) = runEmits r c t := by
  rw [runEmits_eq_numFrames] at h ⊢
  rw [runEmits_eq_numFrames]
  by_cases hle : c + r ≤ t + 1
  · have hE1 : 0 < numFrames (c + r) c t := by
      by_contra hE0
      have hE0' : numFrames (c + r) c t = 0 := by omega
      rw [hE0', Nat.zero_mul, Nat.zero_add] at h
      exact h hle
    have hlow := numFrames_lower (c + r) c t hc (by omega) hE1
    have e1 : numFrames (c + r) c (t + 1) = (t + 1 - (c + r)) / c + 1 := by
      unfold numFrames
      rw [if_pos hle]
    have hdiv : (t + 1 - (c + r)) / c = numFrames (c + r) c t - 1 := by
      apply Nat.div_eq_of_lt_le
      · generalize hT : (numFrames (c + r) c t - 1) * c = T at hlow
        omega
      · have hrel : (numFrames (c + r) c t - 1 + 1) * c = numFrames (c + r) c t * c := by
          congr 1
          omega
        rw [hrel]
        generalize hT : numFrames (c + r) c t * c = T at h
        omega
    rw [e1, hdiv]
    omega
  · have h2 : ¬ (c + r ≤ t) := by omega
    have e1 : numFrames (c + r) c (t + 1) = 0 := by
      unfold numFrames
      rw [if_neg hle]
    have e2 : numFrames (c + r) c t = 0 := by
      unfold numFrames
      rw [if_neg h2]
    rw [e1, e2]

lemma ctx_window_stable {F : Type} (l r c : ℕ) (hc : 0 < c) (t : ℕ) (P : List F) (s : List F)
    (hP : P.length = l + t) (k : ℕ) (hk : k < runEmits r c t) :
    ((P ++ s).drop (k * c)).take (l + c + r) =
      (P.drop (k * c)).take (l + c + r) := by
  have hE1 : 0 < runEmits r c t := by omega
  have hlow : (c + r) + (runEmits r c t - 1) * c ≤ t := by
    rw [runEmits_eq_numFrames] at hE1 ⊢
    exact numFrames_lower (c + r) c t hc (by omega) hE1
  have hmono : k * c ≤ (runEmits r c t - 1) * c := Nat.mul_le_mul_right _ (by omega)
  have hfit : k * c + (l + c + r) ≤ P.length := by
    rw [hP]
    generalize hT1 : k * c = T1 at hmono ⊢
    generalize hT2 : (runEmits r c t - 1) * c = T2 at hmono hlow
    omega
  rw [List.drop_append_of_le_length (by omega),
    List.take_append_of_le_length (by rw [List.length_drop]; omega)]

lemma ctx_step_started {F : Type} (l r c : ℕ) (q : List F) (out : List (List F)) (g : F) :
    Ctx.step l r c ⟨q, true, out⟩ g =
      if l + c + r ≤ (q ++ [g]).length then
        ⟨(q ++ [g]).drop c, true, out ++ [(q ++ [g]).take (l + c + r)]⟩
      else ⟨q ++ [g], true, out⟩ := rfl

lemma ctx_step_unstarted {F : Type} (l r c : ℕ) (q : List F) (out : List (List F)) (g : F) :
    Ctx.step l r c ⟨q, false, out⟩ g =
      if l + c + r ≤ (List.replicate l g ++ [g]).length then
        ⟨(List.replicate l g ++ [g]).drop c, true,
          out ++ [(List.replicate l g ++ [g]).take (l + c + r)]⟩
      else ⟨List.replicate l g ++ [g], true, out⟩ := rfl

lemma ctx_run_canon {F : Type} (l r c : ℕ) (hc : 0 < c) (f : F) (fs : List F) :
    Ctx.run l r c (f :: fs) =
      ⟨(List.replicate l f ++ (f :: fs)).drop (runEmits r c (f :: fs).length * c),
       true,
       (List.range (runEmits r c (f :: fs).length)).map
         (fun k => ((List.replicate l f ++ (f :: fs)).drop (k * c)).take (l + c + r))⟩ := by
  induction fs using List.reverseRecOn with
  | nil =>
    show Ctx.step l r c ⟨[], false, []⟩ f = _
    rw [ctx_step_unstarted]
    have hlen : (List.replicate l f ++ [f]).length = l + 1 := by
      rw [List.length_append, List.length_replicate, List.length_singleton]
    by_cases hcond : l + c + r ≤ (List.replicate l f ++ [f]).length
    · rw [if_pos hcond]
      have hcr : c = 1 ∧ r = 0 := by
        rw [hlen] at hcond
        omega
      obtain ⟨rfl, rfl⟩ := hcr
      have hE : runEmits 0 1 ([f] : List F).length = 1 := by
        show runEmits 0 1 1 = 1
        decide
      rw [hE]
      simp [List.range_succ]
    · rw [if_neg hcond]
      have hE : runEmits r c ([f] : List F).length = 0 := by
        show runEmits r c 1 = 0
        unfold runEmits
        rw [hlen] at hcond
        rw [if_neg (by omega)]
      rw [hE]
      simp
  | append_singleton bs g ih =>
    have hrun : Ctx.run l r c (f :: (bs ++ [g])) =
        Ctx.step l r c (Ctx.run l r c (f :: bs)) g := by
      unfold Ctx.run
      rw [show f :: (bs ++ [g]) = (f :: bs) ++ [g] by simp, List.foldl_append]
      rw [List.foldl_cons, List.foldl_nil]
    rw [hrun, ih]
    set t := (f :: bs).length with ht
    set E := runEmits r c t with hE
    set P : List F := List.replicate l f ++ (f :: bs) with hP
    have hPlen : P.length = l + t := by
      rw [hP, List.length_append, List.length_replicate]
    have hEc : E * c ≤ t := by
      rw [hE, runEmits_eq_numFrames]
      exact numFrames_mul_le (c + r) c t hc (by omega)
    have hP2 : List.replicate l f ++ (f :: (bs ++ [g])) = P ++ [g] := by
      rw [hP]
      simp
    have ht2 : (f :: (bs ++ [g])).length = t + 1 := by
      rw [ht]
      simp
    rw [ctx_step_started]
    have hq : P.drop (E * c) ++ [g] = (P ++ [g]).drop (E * c) :=
      (List.drop_append_of_le_length (by omega)).symm
    have hqlen : (P.drop (E * c) ++ [g]).length = l + t + 1 - E * c := by
      rw [List.length_append, List.length_drop, hPlen, List.length_singleton]
      omega
    by_cases hcond : l + c + r ≤ (P.drop (E * c) ++ [g]).length
    · rw [if_pos hcond]
      have hcond2 : E * c + (c + r) ≤ t + 1 := by
        rw [hqlen] at hcond
        generalize hT : E * c = T at hcond hEc ⊢
        omega
      have hE2 : runEmits r c (f :: (bs ++ [g])).length = E + 1 := by
        rw [ht2, hE]
        exact runEmits_succ_of_le r c t hc (by rw [← hE]; exact hcond2)
      rw [hE2, hP2]
      refine congrArg₂ (fun a b => CtxState.mk a true b) ?_ ?_
      · rw [hq, List.drop_drop]
        congr 1
        rw [Nat.succ_mul]
      · rw [List.range_succ, List.map_append, List.map_singleton]
        congr 1
        · apply List.map_congr_left
          intro k hk
          rw [List.mem_range] at hk
          exact (ctx_window_stable l r c hc t P [g] hPlen k (by rw [← hE]; exact hk)).symm
        · rw [hq]
    · rw [if_neg hcond]
      have hcond2 : ¬ (E * c + (c + r) ≤ t + 1) := by
        rw [hqlen] at hcond
        generalize hT : E * c = T at hcond hEc ⊢
        omega
      have hE2 : runEmits r c (f :: (bs ++ [g])).length = E := by
        rw [ht2, hE]
        exact runEmits_succ_of_gt r c t hc (by rw [← hE]; exact hcond2)
      rw [hE2, hP2]
      refine congrArg₂ (fun a b => CtxState.mk a true b) ?_ ?_
      · exact hq
      · apply List.map_congr_left
        intro k hk
        rw [List.mem_range] at hk
        exact (ctx_window_stable l r c hc t P [g] hPlen k (by rw [← hE]; exact hk)).symm

lemma take_append_replicate_eq {F : Type} (w p1 p2 : ℕ) (zero : F) (q : List F)
    (h1 : w ≤ q.length + p1) (h2 : w ≤ q.length + p2) :
    (q ++ List.replicate p1 zero).take w = (q ++ List.replicate p2 zero).take w := by
  rw [List.take_append_eq_append_take, List.take_append_eq_append_take,
    List.take_replicate, List.take_replicate]
  congr 2
  omega

lemma lt_nChunks_iff (c x m : ℕ) (hc : 0 < c) : m < nChunks c x ↔ m * c < x := by
  unfold nChunks
  constructor
  · intro h
    have h2 : m + 1 ≤ (x + c - 1) / c := h
    have h3 : (m + 1) * c ≤ x + c - 1 := (Nat.le_div_iff_mul_le hc).mp h2
    have h4 : (m + 1) * c = m * c + c := Nat.succ_mul _ _
    generalize hT : m * c = T at h3 h4 ⊢
    omega
  · intro h
    have h4 : (m + 1) * c = m * c + c := Nat.succ_mul _ _
    have h3 : (m + 1) * c ≤ x + c - 1 := by
      generalize hT : m * c = T at h h4 ⊢
      omega
    exact (Nat.le_div_iff_mul_le hc).mpr h3

lemma nChunks_step (c x : ℕ) (hc : 0 < c) (hx : 0 < x) :
    nChunks c x = nChunks c (x - c) + 1 := by
  unfold nChunks
  by_cases h : c ≤ x
  · have h1 : x - c + c - 1 = (x + c - 1) - c := by omega
    rw [h1, ← Nat.div_eq_sub_div hc (by omega)]
  · have h1 : x - c = 0 := by omega
    rw [h1]
    have h2 : (x + c - 1) / c = 1 := Nat.div_eq_of_lt_le (by omega) (by omega)
    have h3 : (0 + c - 1) / c = 0 := Nat.div_eq_of_lt (by omega)
    rw [h2, h3]

lemma nChunks_additive (c x m : ℕ) (hc : 0 < c) (h : m * c ≤ x) :
    nChunks c x = m + nChunks c (x - m * c) := by
  induction m with
  | zero =>
    rw [Nat.zero_mul, Nat.sub_zero, Nat.zero_add]
  | succ k ihk =>
    rw [Nat.succ_mul] at h ⊢
    have hk : k * c ≤ x := by
      generalize hT : k * c = T at h ⊢
      omega
    rw [ihk hk]
    have hpos : 0 < x - k * c := by
      generalize hT : k * c = T at h ⊢
      omega
    rw [nChunks_step c (x - k * c) hc hpos]
    have harg : x - k * c - c = x - (k * c + c) := by
      generalize hT : k * c = T
      omega
    rw [harg]
    omega

lemma flushAux_canon {F : Type} (l r c : ℕ) (hc : 0 < c) (zero : F) :
    ∀ fuel (q : List F), q.length ≤ fuel →
      flushAux l r c zero fuel q =
        (List.range (nChunks c (q.length - l))).map
          (fun j => ((q ++ List.replicate (l + c + r) zero).drop (j * c)).take (l + c + r)) := by
  intro fuel
  induction fuel with
  | zero =>
    intro q hq
    have hq0 : q = [] := List.length_eq_zero.mp (by omega)
    subst hq0
    have h0 : nChunks c ((List.nil (α := F)).length - l) = 0 := by
      show nChunks c (0 - l) = 0
      have : (0 : ℕ) - l = 0 := by omega
      rw [this]
      unfold nChunks
      exact Nat.div_eq_of_lt (by omega)
    rw [h0]
    rfl
  | succ n ih =>
    intro q hq
    by_cases h : l < q.length
    · have hrec := ih (q.drop c) (by rw [List.length_drop]; omega)
      simp only [flushAux, if_pos h, hrec]
      have hcount : nChunks c (q.length - l) = nChunks c ((q.drop c).length - l) + 1 := by
        rw [List.length_drop]
        rw [nChunks_step c (q.length - l) hc (by omega)]
        congr 2
        omega
      rw [hcount, List.range_succ_eq_map, List.map_cons, List.map_map]
      congr 1
      · rw [Nat.zero_mul, List.drop_zero]
        exact take_append_replicate_eq _ _ _ zero q (by omega) (by omega)
      · apply List.map_congr_left
        intro j hj
        rw [List.mem_range] at hj
        have hpos : 0 < nChunks c ((q.drop c).length - l) := by omega
        have hcq : c < q.length := by
          have h1 : (0 : ℕ) * c < (q.drop c).length - l := by
            rw [← lt_nChunks_iff c _ 0 hc]
            exact hpos
          rw [List.length_drop] at h1
          omega
        show ((q.drop c ++ List.replicate (l + c + r) zero).drop (j * c)).take (l + c + r) =
          ((q ++ List.replicate (l + c + r) zero).drop (Nat.succ j * c)).take (l + c + r)
        rw [show q.drop c ++ List.replicate (l + c + r) zero =
            (q ++ List.replicate (l + c + r) zero).drop c from
          (List.drop_append_of_le_length (by omega)).symm]
        rw [List.drop_drop]
        congr 2
        rw [Nat.succ_mul]
        omega
    · have h0 : nChunks c (q.length - l) = 0 := by
        have : q.length - l = 0 := by omega
        rw [this]
        unfold nChunks
        exact Nat.div_eq_of_lt (by omega)
      rw [h0]
      simp only [flushAux, if_neg h]
      rfl

lemma nChunks_zero (c : ℕ) (hc : 0 < c) : nChunks c 0 = 0 := by
  unfold nChunks
  exact Nat.div_eq_of_lt (by omega)

lemma ctx_total_canon {F : Type} (l r c : ℕ) (hc : 0 < c) (zero : F) (fs : List F) :
    (Ctx.setDone l r c zero (Ctx.run l r c fs)).out = ctxChunks l r c zero fs := by
  cases fs with
  | nil =>
    show ([] : List (List F)) ++ flushAux l r c zero (List.length ([] : List F) + 1) [] =
      ctxChunks l r c zero []
    rw [flushAux_canon l r c hc zero _ _ (by simp)]
    unfold ctxChunks
    rw [show (List.nil (α := F)).length - l = 0 by simp, nChunks_zero c hc,
      show (List.nil (α := F)).length = 0 from rfl, nChunks_zero c hc]
    rfl
  | cons f fs' =>
    rw [ctx_run_canon l r c hc f fs']
    set t := (f :: fs').length with ht
    set E := runEmits r c t with hE
    set P : List F := List.replicate l f ++ (f :: fs') with hP
    have hPlen : P.length = l + t := by
      rw [hP, List.length_append, List.length_replicate]
    have hEc : E * c ≤ t := by
      rw [hE, runEmits_eq_numFrames]
      exact numFrames_mul_le (c + r) c t hc (by omega)
    set Q : List F := P.drop (E * c) with hQ
    have hQlen : Q.length = l + t - E * c := by
      rw [hQ, List.length_drop, hPlen]
    show (List.range E).map (fun k => (P.drop (k * c)).take (l + c + r)) ++
        flushAux l r c zero (Q.length + 1) Q = ctxChunks l r c zero (f :: fs')
    rw [flushAux_canon l r c hc zero _ _ (Nat.le_succ _)]
    have hql : Q.length - l = t - E * c := by
      rw [hQlen]
      generalize hT : E * c = T at hEc ⊢
      omega
    have hcount : nChunks c t = E + nChunks c (t - E * c) :=
      nChunks_additive c t E hc hEc
    unfold ctxChunks
    have hpadded : paddedStream l (c + r) zero (f :: fs') = P ++ List.replicate (c + r) zero := by
      rw [hP]
      rfl
    rw [hpadded, show (f :: fs').length = t from ht.symm, hcount, List.range_add,
      List.map_append, List.map_map, hql]
    congr 1
    · apply List.map_congr_left
      intro k hk
      rw [List.mem_range] at hk
      exact (ctx_window_stable l r c hc t P (List.replicate (c + r) zero) hPlen k
        (by rw [← hE]; exact hk)).symm
    · apply List.map_congr_left
      intro j hj
      rw [List.mem_range] at hj
      have hjc : j * c < t - E * c := (lt_nChunks_iff c _ j hc).mp hj
      have hjQ : j * c ≤ Q.length := by
        rw [hQlen]
        generalize hT1 : j * c = T1 at hjc ⊢
        generalize hT2 : E * c = T2 at hjc hEc ⊢
        omega
      show ((Q ++ List.replicate (l + c + r) zero).drop (j * c)).take (l + c + r) =
        ((P ++ List.replicate (c + r) zero).drop ((E + j) * c)).take (l + c + r)
      have hstep1 : (P ++ List.replicate (c + r) zero).drop ((E + j) * c) =
          (Q ++ List.replicate (c + r) zero).drop (j * c) := by
        rw [hQ, show (E + j) * c = E * c + j * c from Nat.add_mul _ _ _,
          ← List.drop_drop, List.drop_append_of_le_length (by omega)]
      rw [hstep1, List.drop_append_of_le_length hjQ, List.drop_append_of_le_length hjQ]
      apply take_append_replicate_eq
      · rw [List.length_drop]
        omega
      · rw [List.length_drop, hQlen]
        generalize hT1 : j * c = T1 at hjc ⊢
        generalize hT2 : E * c = T2 at hjc hEc ⊢
        omega

lemma nChunks_mul_ge (c T : ℕ) (hc : 0 < c) : T ≤ nChunks c T * c := by
  by_contra h
  have h2 : nChunks c T * c < T := by omega
  have h3 : nChunks c T < nChunks c T := (lt_nChunks_iff c T _ hc).mpr h2
  omega

lemma nChunks_ceil (c T : ℕ) (hc : 0 < c) :
    (nChunks c T : ℤ) = ⌈(T : ℚ) / (c : ℚ)⌉ := by
  have hc0 : (0 : ℚ) < (c : ℚ) := by exact_mod_cast hc
  symm
  rw [Int.ceil_eq_iff]
  constructor
  · by_cases hT : T = 0
    · subst hT
      rw [nChunks_zero c hc]
      norm_num
    · have hN : 0 < nChunks c T := (lt_nChunks_iff c T 0 hc).mpr (by omega)
      have hlt : (nChunks c T - 1) * c < T := (lt_nChunks_iff c T _ hc).mp (by omega)
      rw [lt_div_iff hc0]
      have hcast : ((nChunks c T : ℤ) : ℚ) - 1 = ((nChunks c T - 1 : ℕ) : ℚ) := by
        rw [Nat.cast_sub hN]
        push_cast
        ring
      rw [hcast]
      exact_mod_cast hlt
  · rw [div_le_iff hc0]
    have := nChunks_mul_ge c T hc
    exact_mod_cast this

set_option maxRecDepth 100000 in
/-- C3: every padded chunk emitted by the context buffer is the slice
`queue[0 .. lctx + chunk + rctx)` of the buffered frame queue (after the
incoming frame is appended), and emission advances the queue by exactly
`chunk` frames; in particular scenario S2 (`lctx = 2`, `rctx = 3`,
`chunk = 2`, 50 constant frames of value `t+1` followed by `SetDone`)
yields exactly 25 padded chunks of length 7, chunk `k` holding the values
`[max 1 (2k-1), max 1 (2k), 2k+1, 2k+2, 2k+3, 2k+4, 2k+5]` with zeros
substituted outside `[1, 50]`. -/
theorem context_buffer_slice_emission {F : Type} (lctx rctx chunk : ℕ)
    (st : CtxState F) (f : F) (hstart : st.started = true)
    (hemit : lctx + chunk + rctx ≤ (st.queue ++ [f]).length) :
    ((Ctx.step lctx rctx chunk st f).out =
        st.out ++ [(st.queue ++ [f]).take (lctx + chunk + rctx)] ∧
      (Ctx.step lctx rctx chunk st f).queue = (st.queue ++ [f]).drop chunk) ∧
    (Ctx.setDone 2 3 2 0 (Ctx.run 2 3 2 ((List.range 50).map (fun t => t + 1)))).out =
      s2Expected ∧
    (∀ ch ∈ s2Expected, ch.length = 7) := by
  obtain ⟨q, started, out⟩ := st
  subst hstart
  refine ⟨?_, by decide, by decide⟩
  rw [ctx_step_started, if_pos hemit]
  exact ⟨rfl, rfl⟩

/-- C3 witness: the theorem applied at a concrete started state with a full
queue. -/
theorem context_buffer_slice_emission_witness :
    (Ctx.step 2 3 2 ⟨[1, 2, 3, 4, 5, 6], true, []⟩ (7 : ℕ)).out =
        [] ++ [([1, 2, 3, 4, 5, 6] ++ [7]).take 7] ∧
      (Ctx.step 2 3 2 ⟨[1, 2, 3, 4, 5, 6], true, []⟩ (7 : ℕ)).queue =
        ([1, 2, 3, 4, 5, 6] ++ [7]).drop 2 :=
  (context_buffer_slice_emission 2 3 2 ⟨[1, 2, 3, 4, 5, 6], true, []⟩ 7 rfl (by decide)).1

/-- C4: for every finite frame stream, the context buffer emits exactly one
chunk per `chunk` frames processed in steady state, and after `SetDone` the
total number of emitted chunks — hence of model invocations — equals
`⌈total_frames / chunk⌉`. -/
theorem context_chunk_completeness {F : Type} (lctx rctx chunk : ℕ) (hc : 0 < chunk)
    (zero : F) (fs : List F) :
    (Ctx.setDone lctx rctx chunk zero (Ctx.run lctx rctx chunk fs)).out.length =
      nChunks chunk fs.length ∧
    ((nChunks chunk fs.length : ℤ) = ⌈(fs.length : ℚ) / (chunk : ℚ)⌉) ∧
    (∀ t, chunk + rctx ≤ t →
      runEmits rctx chunk (t + chunk) = runEmits rctx chunk t + 1) := by
  refine ⟨?_, nChunks_ceil chunk fs.length hc, ?_⟩
  · rw [ctx_total_canon lctx rctx chunk hc zero fs]
    unfold ctxChunks
    rw [List.length_map, List.length_range]
  · intro t htc
    rw [runEmits_eq_numFrames, runEmits_eq_numFrames]
    unfold numFrames
    rw [if_pos (by omega), if_pos htc]
    have harg : t + chunk - (chunk + rctx) = (t - (chunk + rctx)) + chunk := by omega
    rw [harg, Nat.add_div_right _ hc]

/-- C4 witness: the theorem applied at scenario S2 — 50 frames, chunk 2,
25 chunks in total. -/
theorem context_chunk_completeness_witness :
    (Ctx.setDone 2 3 2 (0 : ℕ) (Ctx.run 2 3 2 ((List.range 50).map (fun t => t + 1)))).out.length =
      nChunks 2 ((List.range 50).map (fun t => t + 1)).length :=
  (context_chunk_completeness 2 3 2 (by norm_num) 0 ((List.range 50).map (fun t => t + 1))).1

/- ------------------------------------------------------------------ -/
/- Lemmas: drain protocol termination                                  -/
/- ------------------------------------------------------------------ -/

lemma tail_iterate_length {α : Type} (q : List α) : (@List.tail α)^[q.length] q = [] := by
  induction q with
  | nil => rfl
  | cons a as ih =>
    rw [List.length_cons, Function.iterate_succ_apply]
    exact ih

lemma frame_pop_iterate {α : Type} (t : List α) (q : List (List α)) (n : ℕ) :
    Frame.pop^[n] (⟨t, q⟩ : FrameState α) = ⟨t, (@List.tail (List α))^[n] q⟩ := by
  induction n generalizing q with
  | zero => rfl
  | succ k ih =>
    rw [Function.iterate_succ_apply, Function.iterate_succ_apply]
    exact ih q.tail

lemma ctx_pop_iterate {F : Type} (q : List F) (s : Bool) (out : List (List F)) (n : ℕ) :
    Ctx.pop^[n] (⟨q, s, out⟩ : CtxState F) = ⟨q, s, (@List.tail (List F))^[n] out⟩ := by
  induction n generalizing out with
  | zero => rfl
  | succ k ih =>
    rw [Function.iterate_succ_apply, Function.iterate_succ_apply]
    exact ih out.tail

/-- C10: the drain protocol terminates — for every finite sequence of
`Process` calls on a frame buffer, and for every finite frame stream fed to
a context buffer followed by `SetDone`, popping once per queued item
reaches `IsDone() = true` after finitely many `Pop` calls (exactly the
number of queued outputs), so the while-not-IsDone/Pop consumption loop of
`TestFrame`/`TestContext` always terminates. -/
theorem drain_loop_terminates {α F : Type} (frame_len frame_hop lctx rctx chunk : ℕ)
    (bs : List (List α)) (zero : F) (fs : List F) :
    Frame.isDone (Frame.pop^[(Frame.runBlocks frame_len frame_hop bs).queue.length]
      (Frame.runBlocks frame_len frame_hop bs)) = true ∧
    Ctx.isDone (Ctx.pop^[(Ctx.setDone lctx rctx chunk zero
        (Ctx.run lctx rctx chunk fs)).out.length]
      (Ctx.setDone lctx rctx chunk zero (Ctx.run lctx rctx chunk fs))) = true := by
  constructor
  · obtain ⟨t, q⟩ := Frame.runBlocks frame_len frame_hop bs
    rw [frame_pop_iterate]
    show ((@List.tail (List α))^[q.length] q).isEmpty = true
    rw [tail_iterate_length]
    rfl
  · obtain ⟨q, s, out⟩ := Ctx.setDone lctx rctx chunk zero (Ctx.run lctx rctx chunk fs)
    rw [ctx_pop_iterate]
    show ((@List.tail (List F))^[out.length] out).isEmpty = true
    rw [tail_iterate_length]
    rfl

/- ------------------------------------------------------------------ -/
/- Pipeline controller theorems                                        -/
/- ------------------------------------------------------------------ -/

/-- C5: calling `Process` on the pipeline controller after `Flush` and
before `Reset` fails with `InvalidPhase`; the error surfaces at the
offending call (the controller performs no work), `Flush` leaves the
controller in the `FLUSHED` phase, and `Reset` — valid from any state —
returns the controller to the initial empty `RUNNING` state and is
idempotent. -/
theorem pipeline_invalid_phase_and_reset (P : PipeParams)
    (mask : List (List ℂ) → List (List ℂ)) (C : Ctrl) (block : List ℝ)
    (hph : C.phase = Phase.flushed) :
    pipeProcess P mask C block = Except.error PipeErr.invalidPhase ∧
    ((pipeFlush P mask C).1).phase = Phase.flushed ∧
    pipeReset P C = initCtrl P ∧
    pipeReset P (pipeReset P C) = pipeReset P C ∧
    (initCtrl P).phase = Phase.running ∧
    (initCtrl P).frameSt.tail = [] ∧ (initCtrl P).frameSt.queue = [] ∧
    (initCtrl P).ctxSt.queue = [] ∧ (initCtrl P).ctxSt.out = [] ∧
    (initCtrl P).acc = List.replicate P.frame_len 0 := by
  refine ⟨?_, rfl, rfl, rfl, rfl, rfl, rfl, rfl, rfl, rfl⟩
  unfold pipeProcess
  rw [if_pos hph]

/-- C5 witness: the theorem applied to a concrete flushed controller. -/
theorem pipeline_invalid_phase_and_reset_witness :
    pipeProcess (⟨4, 2, 4, [1, 1, 1, 1], [1, 1, 1, 1], 1, 1, 1⟩ : PipeParams) id
      (pipeFlush (⟨4, 2, 4, [1, 1, 1, 1], [1, 1, 1, 1], 1, 1, 1⟩ : PipeParams) id
        (initCtrl ⟨4, 2, 4, [1, 1, 1, 1], [1, 1, 1, 1], 1, 1, 1⟩)).1 [0, 1] =
      Except.error PipeErr.invalidPhase :=
  (pipeline_invalid_phase_and_reset (⟨4, 2, 4, [1, 1, 1, 1], [1, 1, 1, 1], 1, 1, 1⟩ : PipeParams)
    id (pipeFlush (⟨4, 2, 4, [1, 1, 1, 1], [1, 1, 1, 1], 1, 1, 1⟩ : PipeParams) id
      (initCtrl ⟨4, 2, 4, [1, 1, 1, 1], [1, 1, 1, 1], 1, 1, 1⟩)).1 [0, 1] rfl).1

/- ------------------------------------------------------------------ -/
/- Lemmas: zero input propagates to zero output                        -/
/- ------------------------------------------------------------------ -/

lemma zipWith_right_prop {A B C : Type} (f : A → B → C) (Pb : B → Prop) (Qc : C → Prop)
    (hf : ∀ a b, Pb b → Qc (f a b)) :
    ∀ (as : List A) (bs : List B), (∀ b ∈ bs, Pb b) →
      ∀ c ∈ List.zipWith f as bs, Qc c := by
  intro as
  induction as with
  | nil =>
    intro bs _ c hc
    simp at hc
  | cons a as' ih =>
    intro bs hbs c hc
    cases bs with
    | nil => simp at hc
    | cons b bs' =>
      rw [List.zipWith_cons_cons] at hc
      rcases List.mem_cons.mp hc with h | h
      · rw [h]
        exact hf a b (hbs b (List.mem_cons_self _ _))
      · exact ih bs' (fun u hu => hbs u (List.mem_cons_of_mem _ hu)) c h

lemma getD_zero_of_all_zero {β : Type} [Zero β] (z : List β) (hz : ∀ x ∈ z, x = (0 : β))
    (n : ℕ) : z.getD n 0 = 0 := by
  by_cases h : n < z.length
  · rw [List.getD_eq_getElem _ _ h]
    exact hz _ (List.getElem_mem h)
  · exact List.getD_eq_default _ _ (by omega)

lemma listDFT_zero (z : List ℂ) (hz : ∀ x ∈ z, x = 0) : ∀ y ∈ listDFT z, y = 0 := by
  intro y hy
  unfold listDFT at hy
  obtain ⟨k, _, hk⟩ := List.mem_map.mp hy
  rw [← hk]
  apply Finset.sum_eq_zero
  intro n _
  rw [getD_zero_of_all_zero z hz n, zero_mul]

lemma listIDFT_zero (Z : List ℂ) (hZ : ∀ x ∈ Z, x = 0) : ∀ y ∈ listIDFT Z, y = 0 := by
  intro y hy
  unfold listIDFT at hy
  obtain ⟨n, _, hn⟩ := List.mem_map.mp hy
  rw [← hn]
  rw [Finset.sum_eq_zero (fun k _ => by rw [getD_zero_of_all_zero Z hZ k, zero_mul]),
    zero_div]

lemma stftFrame_zero (P : PipeParams) (f : List ℝ) (hf : ∀ x ∈ f, x = 0) :
    ∀ y ∈ stftFrame P f, y = 0 := by
  unfold stftFrame
  apply listDFT_zero
  intro x hx
  obtain ⟨u, hu, hux⟩ := List.mem_map.mp hx
  rcases List.mem_append.mp hu with h | h
  · have hu0 : u = 0 :=
      zipWith_right_prop (fun a b => a * b) (fun b => b = 0) (fun c => c = 0)
        (fun a b hb => by simp [hb]) P.window f hf u h
    rw [← hux, hu0]
    exact Complex.ofReal_zero
  · rw [← hux, List.eq_of_mem_replicate h]
    exact Complex.ofReal_zero

lemma istftFrame_zero (P : PipeParams) (s : List ℂ) (hs : ∀ x ∈ s, x = 0) :
    ∀ y ∈ istftFrame P s, y = 0 := by
  unfold istftFrame
  apply zipWith_right_prop (fun a b => a * b) (fun b => b = 0) (fun c => c = 0)
    (fun a b hb => by simp [hb])
  intro b hb
  have hb2 := List.mem_of_mem_take hb
  obtain ⟨z, hz, hzb⟩ := List.mem_map.mp hb2
  rw [← hzb, listIDFT_zero s hs z hz]
  exact Complex.zero_re

lemma zipWith_both_prop {A B C : Type} (f : A → B → C) (Pa : A → Prop) (Pb : B → Prop)
    (Qc : C → Prop) (hf : ∀ a b, Pa a → Pb b → Qc (f a b)) :
    ∀ (as : List A) (bs : List B), (∀ a ∈ as, Pa a) → (∀ b ∈ bs, Pb b) →
      ∀ c ∈ List.zipWith f as bs, Qc c := by
  intro as
  induction as with
  | nil =>
    intro bs _ _ c hc
    simp at hc
  | cons a as' ih =>
    intro bs has hbs c hc
    cases bs with
    | nil => simp at hc
    | cons b bs' =>
      rw [List.zipWith_cons_cons] at hc
      rcases List.mem_cons.mp hc with h | h
      · rw [h]
        exact hf a b (has a (List.mem_cons_self _ _)) (hbs b (List.mem_cons_self _ _))
      · exact ih bs' (fun u hu => has u (List.mem_cons_of_mem _ hu))
          (fun u hu => hbs u (List.mem_cons_of_mem _ hu)) c h

lemma olaStep_zero (len hop : ℕ) (acc f : List ℝ) (ha : ∀ x ∈ acc, x = 0)
    (hf : ∀ x ∈ f, x = 0) :
    (∀ x ∈ (olaStep len hop acc f).1, x = 0) ∧
    (∀ x ∈ (olaStep len hop acc f).2, x = 0) := by
  have hadd : ∀ x ∈ List.zipWith (fun a b => a + b) acc f, x = (0 : ℝ) :=
    zipWith_both_prop (fun a b => a + b) (fun a => a = 0) (fun b => b = 0) (fun c => c = 0)
      (fun a b haz hbz => by simp [haz, hbz]) acc f ha hf
  have h1 : (olaStep len hop acc f).1 =
      (List.zipWith (fun a b => a + b) acc f).drop hop ++
        List.replicate (min hop len) 0 := rfl
  have h2 : (olaStep len hop acc f).2 =
      (List.zipWith (fun a b => a + b) acc f).take hop := rfl
  constructor
  · intro x hx
    rw [h1] at hx
    rcases List.mem_append.mp hx with h | h
    · exact hadd x (List.mem_of_mem_drop h)
    · exact List.eq_of_mem_replicate h
  · intro x hx
    rw [h2] at hx
    exact hadd x (List.mem_of_mem_take hx)

lemma olaFold_zero (P : PipeParams) (acc : List ℝ) (frames : List (List ℝ))
    (ha : ∀ x ∈ acc, x = 0) (hfr : ∀ fr ∈ frames, ∀ x ∈ fr, x = 0) :
    (∀ x ∈ (olaFold P acc frames).1, x = 0) ∧
    (∀ x ∈ (olaFold P acc frames).2, x = 0) := by
  have key : ∀ (fl : List (List ℝ)) (st : List ℝ × List ℝ),
      (∀ x ∈ st.1, x = (0 : ℝ)) → (∀ x ∈ st.2, x = (0 : ℝ)) →
      (∀ fr ∈ fl, ∀ x ∈ fr, x = (0 : ℝ)) →
      (∀ x ∈ (fl.foldl (fun st f =>
        let r := olaStep P.frame_len P.frame_hop st.1 f
        (r.1, st.2 ++ r.2)) st).1, x = 0) ∧
      (∀ x ∈ (fl.foldl (fun st f =>
        let r := olaStep P.frame_len P.frame_hop st.1 f
        (r.1, st.2 ++ r.2)) st).2, x = 0) := by
    intro fl
    induction fl with
    | nil =>
      intro st h1 h2 _
      exact ⟨h1, h2⟩
    | cons fr fl' ih =>
      intro st h1 h2 hfl
      rw [List.foldl_cons]
      have hstep := olaStep_zero P.frame_len P.frame_hop st.1 fr h1
        (hfl fr (List.mem_cons_self _ _))
      refine ih _ hstep.1 ?_ (fun u hu => hfl u (List.mem_cons_of_mem _ hu))
      intro x hx
      rcases List.mem_append.mp hx with h | h
      · exact h2 x h
      · exact hstep.2 x h
  exact key frames (acc, []) ha (by simp) hfr

lemma enhanceChunk_zero (P : PipeParams) (mask : List (List ℂ) → List (List ℂ))
    (ch : List (List ℂ)) (hch : ∀ s ∈ ch, ∀ x ∈ s, x = 0) :
    ∀ s ∈ enhanceChunk P mask ch, ∀ x ∈ s, x = 0 := by
  unfold enhanceChunk
  apply zipWith_right_prop (fun m s => List.zipWith (fun a b => a * b) m s)
    (fun s => ∀ x ∈ s, x = (0 : ℂ)) (fun s => ∀ x ∈ s, x = (0 : ℂ))
  · intro m s hs
    exact zipWith_right_prop (fun a b => a * b) (fun b => b = 0) (fun c => c = 0)
      (fun a b hb => by simp [hb]) m s hs
  · intro s hs
    exact hch s (List.mem_of_mem_drop (List.mem_of_mem_take hs))

lemma drainAux_mem {α : Type} (len hop : ℕ) :
    ∀ fuel (u : List α),
      (∀ fr ∈ (drainAux len hop fuel u).1, ∀ y ∈ fr, y ∈ u) ∧
      (∀ y ∈ (drainAux len hop fuel u).2, y ∈ u) := by
  intro fuel
  induction fuel with
  | zero =>
    intro u
    constructor
    · intro fr hfr
      simp [drainAux] at hfr
    · intro y hy
      simpa [drainAux] using hy
  | succ n ih =>
    intro u
    by_cases h : len ≤ u.length
    · have hrec := ih (u.drop hop)
      constructor
      · intro fr hfr
        simp only [drainAux, if_pos h] at hfr
        rcases List.mem_cons.mp hfr with h2 | h2
        · intro y hy
          rw [h2] at hy
          exact List.mem_of_mem_take hy
        · intro y hy
          exact List.mem_of_mem_drop (hrec.1 fr h2 y hy)
      · intro y hy
        simp only [drainAux, if_pos h] at hy
        exact List.mem_of_mem_drop (hrec.2 y hy)
    · constructor
      · intro fr hfr
        simp [drainAux, if_neg h] at hfr
      · intro y hy
        simpa [drainAux, if_neg h] using hy

lemma ctx_step_mem {F : Type} (l r c : ℕ) (st : CtxState F) (f : F) :
    (∀ g ∈ (Ctx.step l r c st f).queue, g ∈ st.queue ∨ g = f) ∧
    (∀ ch ∈ (Ctx.step l r c st f).out,
      ch ∈ st.out ∨ ∀ g ∈ ch, g ∈ st.queue ∨ g = f) := by
  obtain ⟨q, started, out⟩ := st
  have hbase : ∀ g ∈ (if started then q ++ [f] else List.replicate l f ++ [f]),
      g ∈ q ∨ g = f := by
    intro g hg
    split at hg
    · rcases List.mem_append.mp hg with h | h
      · exact Or.inl h
      · exact Or.inr (by simpa using h)
    · rcases List.mem_append.mp hg with h | h
      · exact Or.inr (List.eq_of_mem_replicate h)
      · exact Or.inr (by simpa using h)
  show (∀ g ∈ (Ctx.step l r c ⟨q, started, out⟩ f).queue, g ∈ q ∨ g = f) ∧ _
  unfold Ctx.step
  by_cases hcond : l + c + r ≤
      (if started then q ++ [f] else List.replicate l f ++ [f]).length
  · rw [if_pos hcond]
    constructor
    · intro g hg
      exact hbase g (List.mem_of_mem_drop hg)
    · intro ch hch
      rcases List.mem_append.mp hch with h | h
      · exact Or.inl h
      · have hch2 : ch = (if started then q ++ [f] else
            List.replicate l f ++ [f]).take (l + c + r) := by simpa using h
        refine Or.inr ?_
        intro g hg
        rw [hch2] at hg
        exact hbase g (List.mem_of_mem_take hg)
  · rw [if_neg hcond]
    exact ⟨hbase, fun ch hch => Or.inl hch⟩

lemma ctx_fold_zero (l r c : ℕ) :
    ∀ (spectra : List (List ℂ)) (st : CtxState (List ℂ)),
      (∀ s ∈ st.queue, ∀ x ∈ s, x = (0 : ℂ)) →
      (∀ ch ∈ st.out, ∀ s ∈ ch, ∀ x ∈ s, x = (0 : ℂ)) →
      (∀ s ∈ spectra, ∀ x ∈ s, x = (0 : ℂ)) →
      (∀ s ∈ (spectra.foldl (Ctx.step l r c) st).queue, ∀ x ∈ s, x = 0) ∧
      (∀ ch ∈ (spectra.foldl (Ctx.step l r c) st).out, ∀ s ∈ ch, ∀ x ∈ s, x = 0) := by
  intro spectra
  induction spectra with
  | nil =>
    intro st h1 h2 _
    exact ⟨h1, h2⟩
  | cons sp spectra2 ih =>
    intro st h1 h2 hsp
    rw [List.foldl_cons]
    have hmem := ctx_step_mem l r c st sp
    apply ih
    · intro s hs
      rcases hmem.1 s hs with h | h
      · exact h1 s h
      · rw [h]
        exact hsp sp (List.mem_cons_self _ _)
    · intro ch hch
      rcases hmem.2 ch hch with h | h
      · exact h2 ch h
      · intro s hs
        rcases h s hs with h3 | h3
        · exact h1 s h3
        · rw [h3]
          exact hsp sp (List.mem_cons_self _ _)
    · intro s hs
      exact hsp s (List.mem_cons_of_mem _ hs)

lemma pipeProcess_zero (P : PipeParams) (mask : List (List ℂ) → List (List ℂ))
    (C : Ctrl) (b : List ℝ) (hph : C.phase = Phase.running)
    (hC : ZeroCtrl C) (hb : ∀ x ∈ b, x = 0) :
    ∃ C2 out, pipeProcess P mask C b = Except.ok (C2, out) ∧
      C2.phase = Phase.running ∧ ZeroCtrl C2 ∧ (∀ x ∈ out, x = 0) := by
  obtain ⟨h1, h2, h3⟩ := hC
  have hnot : ¬ (C.phase = Phase.flushed) := by
    rw [hph]
    intro h
    cases h
  have htz : ∀ x ∈ C.frameSt.tail ++ b, x = (0 : ℝ) := by
    intro x hx
    rcases List.mem_append.mp hx with h | h
    · exact h1 x h
    · exact hb x h
  have hdm := drainAux_mem P.frame_len P.frame_hop
    ((C.frameSt.tail ++ b).length + 1) (C.frameSt.tail ++ b)
  have hframes : ∀ fr ∈ (drainAux P.frame_len P.frame_hop
      ((C.frameSt.tail ++ b).length + 1) (C.frameSt.tail ++ b)).1,
      ∀ x ∈ fr, x = (0 : ℝ) :=
    fun fr hfr x hx => htz x (hdm.1 fr hfr x hx)
  have htail : ∀ x ∈ (drainAux P.frame_len P.frame_hop
      ((C.frameSt.tail ++ b).length + 1) (C.frameSt.tail ++ b)).2, x = (0 : ℝ) :=
    fun x hx => htz x (hdm.2 x hx)
  have hspz : ∀ s ∈ (drainAux P.frame_len P.frame_hop
      ((C.frameSt.tail ++ b).length + 1) (C.frameSt.tail ++ b)).1.map (stftFrame P),
      ∀ x ∈ s, x = (0 : ℂ) := by
    intro s hs
    obtain ⟨fr, hfr, hfs⟩ := List.mem_map.mp hs
    rw [← hfs]
    exact stftFrame_zero P fr (hframes fr hfr)
  have hcz := ctx_fold_zero P.lctx P.rctx P.chunk
    ((drainAux P.frame_len P.frame_hop
      ((C.frameSt.tail ++ b).length + 1) (C.frameSt.tail ++ b)).1.map (stftFrame P))
    ⟨C.ctxSt.queue, C.ctxSt.started, []⟩ h2 (by simp) hspz
  set cres := ((drainAux P.frame_len P.frame_hop
      ((C.frameSt.tail ++ b).length + 1) (C.frameSt.tail ++ b)).1.map (stftFrame P)).foldl
      (Ctx.step P.lctx P.rctx P.chunk) ⟨C.ctxSt.queue, C.ctxSt.started, []⟩ with hcres
  have henhz : ∀ fr ∈ (cres.out.map
      (fun ch => (enhanceChunk P mask ch).map (istftFrame P))).flatten,
      ∀ x ∈ fr, x = (0 : ℝ) := by
    intro fr hfr
    rw [List.mem_flatten] at hfr
    obtain ⟨lst, hlst, hfr2⟩ := hfr
    obtain ⟨ch, hch, hchl⟩ := List.mem_map.mp hlst
    rw [← hchl] at hfr2
    obtain ⟨s, hsm, hsf⟩ := List.mem_map.mp hfr2
    rw [← hsf]
    exact istftFrame_zero P s (enhanceChunk_zero P mask ch (hcz.2 ch hch) s hsm)
  have holz := olaFold_zero P C.acc
    ((cres.out.map (fun ch => (enhanceChunk P mask ch).map (istftFrame P))).flatten)
    h3 henhz
  refine ⟨⟨Phase.running,
      ⟨(drainAux P.frame_len P.frame_hop
        ((C.frameSt.tail ++ b).length + 1) (C.frameSt.tail ++ b)).2, []⟩,
      ⟨cres.queue, cres.started, []⟩,
      (olaFold P C.acc ((cres.out.map
        (fun ch => (enhanceChunk P mask ch).map (istftFrame P))).flatten)).1⟩,
    (olaFold P C.acc ((cres.out.map
      (fun ch => (enhanceChunk P mask ch).map (istftFrame P))).flatten)).2,
    ?_, rfl, ⟨htail, hcz.1, holz.1⟩, holz.2⟩
  unfold pipeProcess
  rw [if_neg hnot]

lemma pipeRunAux_zero (P : PipeParams) (mask : List (List ℂ) → List (List ℂ)) :
    ∀ (bs : List (List ℝ)) (C : Ctrl),
      C.phase = Phase.running → ZeroCtrl C → (∀ b ∈ bs, ∀ x ∈ b, x = 0) →
      ∀ out ∈ pipeRunAux P mask bs C, ∀ y ∈ out, y = 0 := by
  intro bs
  induction bs with
  | nil =>
    intro C _ _ _ out hout
    simp [pipeRunAux] at hout
  | cons b bs2 ih =>
    intro C hph hC hb out hout
    obtain ⟨C2, o, heq, hph2, hC2, ho⟩ :=
      pipeProcess_zero P mask C b hph hC (hb b (List.mem_cons_self _ _))
    have hstep : pipeRunAux P mask (b :: bs2) C = o :: pipeRunAux P mask bs2 C2 := by
      simp only [pipeRunAux]
      rw [heq]
    rw [hstep] at hout
    rcases List.mem_cons.mp hout with h | h
    · rw [h]
      exact ho
    · exact ih C2 hph2 hC2 (fun u hu => hb u (List.mem_cons_of_mem _ hu)) out h

lemma all_zero_map_replicate (l : List (List ℝ)) (h : ∀ o ∈ l, ∀ y ∈ o, y = 0) :
    l = l.map (fun o => List.replicate o.length 0) := by
  induction l with
  | nil => rfl
  | cons a l2 ih =>
    rw [List.map_cons]
    congr 1
    · exact List.eq_replicate_of_mem (h a (List.mem_cons_self _ _))
    · exact ih (fun o ho => h o (List.mem_cons_of_mem _ ho))

/-- C8: for a stream of all-zero `Process` calls from the initial state,
every call succeeds and every output sample is exactly zero (hence within
machine epsilon / one ULP in float arithmetic), for any configuration
(window, hop, contexts) and any enhancement mask; equivalently, the list of
outputs equals its own all-zero shape. -/
theorem pipeline_zero_input_zero_output (P : PipeParams)
    (mask : List (List ℂ) → List (List ℂ)) (bs : List (List ℝ))
    (hb : ∀ b ∈ bs, ∀ x ∈ b, x = 0) :
    (∀ out ∈ pipeRunAux P mask bs (initCtrl P), ∀ y ∈ out, y = 0) ∧
    pipeRunAux P mask bs (initCtrl P) =
      (pipeRunAux P mask bs (initCtrl P)).map (fun o => List.replicate o.length 0) := by
  have hz : ZeroCtrl (initCtrl P) := by
    refine ⟨?_, ?_, ?_⟩
    · intro x hx
      simp [initCtrl] at hx
    · intro s hs
      simp [initCtrl] at hs
    · intro x hx
      exact List.eq_of_mem_replicate hx
  have hmain := pipeRunAux_zero P mask bs (initCtrl P) rfl hz hb
  exact ⟨hmain, all_zero_map_replicate _ hmain⟩

/-- C8 witness: the theorem applied at a concrete configuration and a
concrete all-zero two-block stream. -/
theorem pipeline_zero_input_zero_output_witness :
    pipeRunAux (⟨4, 2, 4, [1, 1, 1, 1], [1, 1, 1, 1], 1, 1, 1⟩ : PipeParams) id
      [[0, 0, 0], [0, 0]] (initCtrl ⟨4, 2, 4, [1, 1, 1, 1], [1, 1, 1, 1], 1, 1, 1⟩) =
    (pipeRunAux (⟨4, 2, 4, [1, 1, 1, 1], [1, 1, 1, 1], 1, 1, 1⟩ : PipeParams) id
      [[0, 0, 0], [0, 0]]
      (initCtrl ⟨4, 2, 4, [1, 1, 1, 1], [1, 1, 1, 1], 1, 1, 1⟩)).map
        (fun o => List.replicate o.length 0) :=
  (pipeline_zero_input_zero_output (⟨4, 2, 4, [1, 1, 1, 1], [1, 1, 1, 1], 1, 1, 1⟩ : PipeParams)
    id [[0, 0, 0], [0, 0]] (by
      intro b hb x hx
      rcases List.mem_cons.mp hb with h | h
      · subst h
        rcases List.mem_cons.mp hx with h2 | h2
        · exact h2
        · rcases List.mem_cons.mp h2 with h3 | h3
          · exact h3
          · rcases List.mem_cons.mp h3 with h4 | h4
            · exact h4
            · simp at h4
      · have hb2 : b = [0, 0] := by simpa using h
        subst hb2
        rcases List.mem_cons.mp hx with h2 | h2
        · exact h2
        · rcases List.mem_cons.mp h2 with h3 | h3
          · exact h3
          · simp at h3)).2
